import Mathlib

/-!
# The SparkFun BLE property descriptor encoder (`sf_ble_prop.h`)

A shallow embedding of `firmware/Artemis_BLE_Env/sf_ble_prop.h` and theorems about the
byte layout of the descriptor blocks it attaches.

Conventions of the embedding

* Bytes and offsets are natural numbers. A store into a `uint8_t` cell reduces the value
  modulo 256, the `uint16_t iNext` of the public operations is reduced modulo 65536, and the
  `uint8_t sort_pos` is incremented modulo 256.
* A `char *` argument is the list of the characters it points at; the terminating NUL is the
  first `0` of the list, or its end. A pointer that the code tests against null is an
  `Option`. The property name is dereferenced by `strlen` without a test, so the operations
  take it as a list (a non-null pointer).
* The scratch array `dBuffer` is seen through the pointer handed to the encoders: index `i`
  is the byte `pBuffer[i]`. Indices from 256 on address what follows the array in memory;
  the encoders do not check the bound, so the model lets such stores land there and records
  them in the ghost field `top`.
* Values of type `int` and `size_t` stay far below the bounds of these types (no string of
  2^31 characters fits the targets) and are not reduced.
* The two static variables `sort_pos` and `titleBuffer` are threaded as `Globals`; the
  characteristic is the list of the descriptors attached to it.
-/

namespace sfBLEProperties

/-! ## Constants -/

def kSFBLEBufferSize : Nat := 256

def kSFBLEMaxString : Nat := 64

def kBLEDescSFEPropCoreUUID : String := "A101"

def kSFEPropTypeBool : Nat := 0x1
def kSFEPropTypeInt : Nat := 0x2
def kSFEPropTypeRange : Nat := 0x3
def kSFEPropTypeText : Nat := 0x4
def kSFEPropTypeDate : Nat := 0x5
def kSFEPropTypeTime : Nat := 0x6
def kSFEPropTypeFloat : Nat := 0x7
def kSFEPropTypeSelect : Nat := 0x8

def kBlkRange : Nat := 0x02
def kBlkTitle : Nat := 0x01
def kBlkSelectOp : Nat := 0x03
def kBlkIncrement : Nat := 0x04

/-! ## C library routines -/

/-- The C `strlen`: the number of characters before the first NUL. -/
def strlen : List Nat → Nat
  | [] => 0
  | c :: cs => if c = 0 then 0 else strlen cs + 1

/-- The BSD `strlcpy dst src size` on a destination array: at most `size - 1` characters of
`src` are copied and a NUL is stored after them; the rest of `dst` is left as it was. -/
def strlcpy (dst src : List Nat) (size : Nat) : List Nat :=
  if size = 0 then dst
  else
    let n := min (strlen src) (size - 1)
    src.take n ++ 0 :: dst.drop (n + 1)

/-- The C `memset s c n` on an array: its first `n` cells become `c`. -/
def memset (s : List Nat) (c n : Nat) : List Nat :=
  List.replicate (min n s.length) c ++ s.drop n

/-- The four bytes of a 32-bit value in memory order (both targets are little-endian),
as `memcpy` from the address of a `uint32_t` or `float` reads them. -/
def bytes32 (v : Nat) : List Nat :=
  [v % 256, v / 256 % 256, v / 65536 % 256, v / 16777216 % 256]

/-! ## The scratch buffer -/

/-- Memory seen through `uint8_t *pBuffer`. `mem i` is the byte `pBuffer[i]`; `top` is a
ghost value, one more than the greatest index stored to so far (0 when nothing was stored). -/
structure Buffer where
  mem : Nat → Nat
  top : Nat

namespace Buffer

/-- The statement `pBuffer[i] = v` on `uint8_t` cells. -/
def store (b : Buffer) (i v : Nat) : Buffer where
  mem := fun j => if j = i then v % 256 else b.mem j
  top := max b.top (i + 1)

/-- The call `memcpy(pBuffer + dst, src, n)`. -/
def memcpy (b : Buffer) (dst : Nat) (src : List Nat) (n : Nat) : Buffer where
  mem := fun j => if dst ≤ j ∧ j < dst + n then src.getD (j - dst) 0 else b.mem j
  top := if n = 0 then b.top else max b.top (dst + n)

/-- The bytes `pBuffer[lo] .. pBuffer[lo + len - 1]`. -/
def slice (b : Buffer) (lo len : Nat) : List Nat :=
  (List.range len).map fun i => b.mem (lo + i)

end Buffer

/-- The declaration `uint8_t dBuffer[kSFBLEBufferSize] = {0}`: 256 zero bytes, followed by
whatever memory `past` lies behind the array. -/
def dBuffer (past : Nat → Nat) : Buffer where
  mem := fun i => if i < kSFBLEBufferSize then 0 else past i
  top := 0

/-! ## State -/

/-- The process-wide variables `static uint8_t sort_pos` and
`static char titleBuffer[kSFBLEMaxString]`. -/
structure Globals where
  sort_pos : Nat
  titleBuffer : List Nat
deriving DecidableEq, Repr

/-- The initial values: `sort_pos = 0` and `titleBuffer = {0}`. -/
def Globals.init : Globals where
  sort_pos := 0
  titleBuffer := List.replicate kSFBLEMaxString 0

/-- A BLE descriptor: its UUID and its value. -/
structure BLEDescriptor where
  uuid : String
  value : List Nat
deriving DecidableEq, Repr

/-- A characteristic, as far as this module touches it: the descriptors added to it, in the
order of the `addDescriptor` calls. -/
abbrev BLECharacteristic := List BLEDescriptor

/-- What an encoder returns: the globals, the buffer, and the next open offset. -/
structure Encoded where
  globals : Globals
  buffer : Buffer
  iNext : Nat

/-- What a public operation leaves behind: the globals, the characteristic, and (ghost) the
scratch buffer as it was when the operation returned. -/
structure Outcome where
  globals : Globals
  bleChar : BLECharacteristic
  dBuffer : Buffer

/-! ## Encoders -/

/-- The encoder `encode_string`: the length byte, then `nString` characters. -/
def encode_string (pBuffer : Buffer) (iNext : Nat) (pString : Option (List Nat))
    (nString : Nat) : Buffer × Nat :=
  match pString with
  | none => (pBuffer, iNext)
  | some s =>
    if nString < 1 then (pBuffer, iNext)
    else
      let pBuffer := pBuffer.store iNext nString
      let iNext := iNext + 1
      (pBuffer.memcpy iNext s nString, iNext + nString)

/-- The encoder `encode_title`: adds the title block when a title is stashed, and clears the stash. -/
def encode_title (g : Globals) (pBuffer : Buffer) (iNext : Nat) : Encoded :=
  let nTitle := strlen g.titleBuffer
  if nTitle = 0 then ⟨g, pBuffer, iNext⟩
  else
    let pBuffer := pBuffer.store iNext kBlkTitle
    let iNext := iNext + 1
    let r := encode_string pBuffer iNext (some g.titleBuffer) nTitle
    let g := { g with titleBuffer := memset g.titleBuffer 0 kSFBLEMaxString }
    ⟨g, r.1, r.2 + nTitle⟩

/-- The encoder `encode_attributes`: type code and sort position; two more bytes are reserved. -/
def encode_attributes (g : Globals) (pBuffer : Buffer) (iNext propType : Nat) : Encoded :=
  let pBuffer := pBuffer.store iNext propType
  let pBuffer := pBuffer.store (iNext + 1) g.sort_pos
  ⟨{ g with sort_pos := (g.sort_pos + 1) % 256 }, pBuffer, iNext + 4⟩

/-- The encoder `encode_core`: attributes, name, and the title if one is stashed. -/
def encode_core (g : Globals) (pBuffer : Buffer) (iNext : Nat) (strName : List Nat)
    (propType : Nat) : Encoded :=
  let a := encode_attributes g pBuffer iNext propType
  let nName := strlen strName
  let nName := if nName > kSFBLEMaxString then kSFBLEMaxString else nName
  let s := encode_string a.buffer a.iNext (some strName) nName
  encode_title a.globals s.1 s.2

/-- The routine `set_descriptor`: a copy of the first `size` bytes of `pData` becomes the value of a
new descriptor, which is added to the characteristic. -/
def set_descriptor (bleChar : BLECharacteristic) (pData : Buffer) (size : Nat) :
    BLECharacteristic :=
  bleChar ++ [⟨kBLEDescSFEPropCoreUUID, pData.slice 0 size⟩]

/-- The routine `add_basic`: a property defined by type and name alone. -/
def add_basic (past : Nat → Nat) (g : Globals) (bleChar : BLECharacteristic)
    (strName : List Nat) (propType : Nat) : Outcome :=
  let c := encode_core g (dBuffer past) 0 strName propType
  let iNext := c.iNext % 65536
  ⟨c.globals, set_descriptor bleChar c.buffer iNext, c.buffer⟩

/-! ## Public operations -/

def addBool (past : Nat → Nat) (g : Globals) (bleChar : BLECharacteristic)
    (strName : List Nat) : Outcome :=
  add_basic past g bleChar strName kSFEPropTypeBool

/-- The operation `addInt` with an increment value. -/
def addInt (past : Nat → Nat) (g : Globals) (bleChar : BLECharacteristic)
    (strName : List Nat) (increment : Nat) : Outcome :=
  let c := encode_core g (dBuffer past) 0 strName kSFEPropTypeInt
  let iNext := c.iNext % 65536
  let buf := c.buffer.store iNext kBlkIncrement
  let iNext := (iNext + 1) % 65536
  let buf := buf.memcpy iNext (bytes32 increment) 4
  ⟨c.globals, set_descriptor bleChar buf (iNext + 4), buf⟩

/-- The operation `addInt` without an increment value: the increment is 1. -/
def addIntDefault (past : Nat → Nat) (g : Globals) (bleChar : BLECharacteristic)
    (strName : List Nat) : Outcome :=
  addInt past g bleChar strName 1

def addString (past : Nat → Nat) (g : Globals) (bleChar : BLECharacteristic)
    (strName : List Nat) : Outcome :=
  add_basic past g bleChar strName kSFEPropTypeText

/-- The operation `addFloat` with an increment value, given as the 32 bits of the `float`. -/
def addFloat (past : Nat → Nat) (g : Globals) (bleChar : BLECharacteristic)
    (strName : List Nat) (increment : Nat) : Outcome :=
  let c := encode_core g (dBuffer past) 0 strName kSFEPropTypeFloat
  let iNext := c.iNext % 65536
  let buf := c.buffer.store iNext kBlkIncrement
  let iNext := (iNext + 1) % 65536
  let buf := buf.memcpy iNext (bytes32 increment) 4
  ⟨c.globals, set_descriptor bleChar buf (iNext + 4), buf⟩

def addDate (past : Nat → Nat) (g : Globals) (bleChar : BLECharacteristic)
    (strName : List Nat) : Outcome :=
  add_basic past g bleChar strName kSFEPropTypeDate

def addTime (past : Nat → Nat) (g : Globals) (bleChar : BLECharacteristic)
    (strName : List Nat) : Outcome :=
  add_basic past g bleChar strName kSFEPropTypeTime

/-- The operation `addRange`: the range block holds `uint32_t range[2] = {vMin, vMax}`. -/
def addRange (past : Nat → Nat) (g : Globals) (bleChar : BLECharacteristic)
    (strName : List Nat) (vMin vMax : Nat) : Outcome :=
  let c := encode_core g (dBuffer past) 0 strName kSFEPropTypeRange
  let iNext := c.iNext % 65536
  let buf := c.buffer.store iNext kBlkRange
  let iNext := (iNext + 1) % 65536
  let range := bytes32 vMin ++ bytes32 vMax
  let buf := buf.memcpy iNext range 8
  ⟨c.globals, set_descriptor bleChar buf (iNext + 8), buf⟩

/-- The operation `addSelect`: returns at once when the option string is null, empty or longer than
`kSFBLEMaxString`. -/
def addSelect (past : Nat → Nat) (g : Globals) (bleChar : BLECharacteristic)
    (strName : List Nat) (strOptions : Option (List Nat)) : Outcome :=
  match strOptions with
  | none => ⟨g, bleChar, dBuffer past⟩
  | some o =>
    if strlen o = 0 ∨ strlen o > kSFBLEMaxString then ⟨g, bleChar, dBuffer past⟩
    else
      let c := encode_core g (dBuffer past) 0 strName kSFEPropTypeSelect
      let iNext := c.iNext % 65536
      let buf := c.buffer.store iNext kBlkSelectOp
      let iNext := (iNext + 1) % 65536
      let s := encode_string buf iNext (some o) (strlen o)
      let iNext := s.2 % 65536
      ⟨c.globals, set_descriptor bleChar s.1 iNext, s.1⟩

/-- The operation `addTitle`: stashes a title for the next property; a null or empty title is ignored. -/
def addTitle (g : Globals) (strTitle : Option (List Nat)) : Globals :=
  match strTitle with
  | none => g
  | some t =>
    if strlen t = 0 then g
    else { g with titleBuffer := strlcpy g.titleBuffer t kSFBLEMaxString }

/-- The operation `addFloat` without an increment value: the increment is the `float` nearest to 0.01,
whose 32 bits are `0x3C23D70A`. -/
def addFloatDefault (past : Nat → Nat) (g : Globals) (bleChar : BLECharacteristic)
    (strName : List Nat) : Outcome :=
  addFloat past g bleChar strName 0x3C23D70A

/-! ## Calls of the public operations -/

/-- A call of one of the property operations, with its arguments other than the
characteristic. -/
inductive Call where
  | addBool (strName : List Nat)
  | addInt (strName : List Nat) (increment : Nat)
  | addIntDefault (strName : List Nat)
  | addString (strName : List Nat)
  | addFloat (strName : List Nat) (increment : Nat)
  | addFloatDefault (strName : List Nat)
  | addDate (strName : List Nat)
  | addTime (strName : List Nat)
  | addRange (strName : List Nat) (vMin vMax : Nat)
  | addSelect (strName : List Nat) (strOptions : Option (List Nat))
deriving DecidableEq, Repr

namespace Call

/-- Runs the call on the given globals and characteristic. -/
def exec (past : Nat → Nat) (g : Globals) (bleChar : BLECharacteristic) : Call → Outcome
  | addBool n => sfBLEProperties.addBool past g bleChar n
  | addInt n i => sfBLEProperties.addInt past g bleChar n i
  | addIntDefault n => sfBLEProperties.addIntDefault past g bleChar n
  | addString n => sfBLEProperties.addString past g bleChar n
  | addFloat n i => sfBLEProperties.addFloat past g bleChar n i
  | addFloatDefault n => sfBLEProperties.addFloatDefault past g bleChar n
  | addDate n => sfBLEProperties.addDate past g bleChar n
  | addTime n => sfBLEProperties.addTime past g bleChar n
  | addRange n lo hi => sfBLEProperties.addRange past g bleChar n lo hi
  | addSelect n o => sfBLEProperties.addSelect past g bleChar n o

/-- The name argument of the call. -/
def strName : Call → List Nat
  | addBool n | addInt n _ | addIntDefault n | addString n | addFloat n _
  | addFloatDefault n | addDate n | addTime n | addRange n _ _ | addSelect n _ => n

/-- The type code the specification gives for the property type of the call:
bool 1, int 2, range 3, text 4, date 5, time 6, float 7, select 8. -/
def typeCode : Call → Nat
  | addBool _ => 1
  | addInt _ _ | addIntDefault _ => 2
  | addRange _ _ _ => 3
  | addString _ => 4
  | addDate _ => 5
  | addTime _ => 6
  | addFloat _ _ | addFloatDefault _ => 7
  | addSelect _ _ => 8

/-- The calls the specification describes as attaching a descriptor: every call but an
`addSelect` whose option string is null, empty or longer than 64 characters. -/
def Accepted : Call → Prop
  | addSelect _ none => False
  | addSelect _ (some o) => 1 ≤ strlen o ∧ strlen o ≤ 64
  | _ => True

instance : DecidablePred Accepted := fun c => by
  unfold Accepted; split <;> infer_instance

/-- The calls that go through `add_basic`. -/
def Basic : Call → Prop
  | addBool _ | addString _ | addDate _ | addTime _ => True
  | _ => False

instance : DecidablePred Basic := fun c => by
  unfold Basic; split <;> infer_instance

end Call

/-- The constraints the C types put on the globals, and the terminating NUL the stash always
has: `sort_pos` is a byte, `titleBuffer` has 64 cells and holds a string within them. -/
def Globals.WF (g : Globals) : Prop :=
  g.sort_pos < 256 ∧ g.titleBuffer.length = kSFBLEMaxString ∧
    strlen g.titleBuffer < kSFBLEMaxString

instance : DecidablePred Globals.WF := fun g => by
  unfold Globals.WF; infer_instance

/-- The title that is stashed: the characters of `titleBuffer` before its NUL. -/
def Globals.pendingTitle (g : Globals) : List Nat :=
  g.titleBuffer.take (strlen g.titleBuffer)

/-! ## Layout of the attached block -/

/-- The buffer holds the bytes `l` at its first `k` indices and is untouched from `k` on. -/
def Filled (past : Nat → Nat) (b : Buffer) (k : Nat) (l : List Nat) : Prop :=
  b.slice 0 k = l ∧ ∀ j, k ≤ j → b.mem j = (dBuffer past).mem j

/-- The name block: the clamped length, then that many characters of the name; nothing for
an empty name. -/
def nameBlock (strName : List Nat) : List Nat :=
  if strlen strName = 0 then []
  else min (strlen strName) 64 :: strName.take (min (strlen strName) 64)

/-- The bytes `encode_title` accounts for: nothing when no title is stashed; otherwise the
tag, the length, the title, and as many untouched bytes as the title is long. -/
def titleBlock (g : Globals) : List Nat :=
  if strlen g.titleBuffer = 0 then []
  else 1 :: strlen g.titleBuffer :: (g.pendingTitle ++ List.replicate (strlen g.titleBuffer) 0)

/-- The bytes a call appends after the core block. -/
def Call.payload : Call → List Nat
  | .addInt _ i => 4 :: bytes32 i
  | .addIntDefault _ => 4 :: bytes32 1
  | .addFloat _ i => 4 :: bytes32 i
  | .addFloatDefault _ => 4 :: bytes32 0x3C23D70A
  | .addRange _ lo hi => 2 :: (bytes32 lo ++ bytes32 hi)
  | .addSelect _ (some o) => 3 :: strlen o :: o.take (strlen o)
  | _ => []

/-! ## Runs -/

/-- One call made by the firmware: `addTitle`, or one of the property operations. -/
inductive Step where
  | title (strTitle : Option (List Nat))
  | prop (c : Call)
deriving DecidableEq, Repr

/-- Runs one step on the globals and the characteristic. -/
def Step.exec (past : Nat → Nat) (s : Globals × BLECharacteristic) :
    Step → Globals × BLECharacteristic
  | .title t => (addTitle s.1 t, s.2)
  | .prop c => ((c.exec past s.1 s.2).globals, (c.exec past s.1 s.2).bleChar)

/-- Runs the steps in order. -/
def run (past : Nat → Nat) (s : Globals × BLECharacteristic) :
    List Step → Globals × BLECharacteristic
  | [] => s
  | st :: rest => run past (st.exec past s) rest

/-- The globals the process can be in: those a run from the initial values ends in. -/
def Reachable (g : Globals) : Prop :=
  ∃ (past : Nat → Nat) (ss : List Step), (run past (Globals.init, []) ss).1 = g

/-- The number of steps of a run that encode a property: the calls that attach. -/
def encodings : List Step → Nat
  | [] => 0
  | .title _ :: rest => encodings rest
  | .prop c :: rest => (if c.Accepted then 1 else 0) + encodings rest

/-- The sort positions the descriptors of a characteristic carry: byte 1 of each value, in
the order the descriptors were attached. -/
def sortPositions (bleChar : BLECharacteristic) : List Nat :=
  bleChar.map fun d => d.value.getD 1 0

/-! ## Single-precision bit patterns -/

/-- The biased exponent field of a single-precision bit pattern. -/
def floatExponent (bits : Nat) : Nat := bits / 8388608 % 256

/-- The significand of a normal single-precision bit pattern, hidden bit included; the
pattern of a positive normal number denotes `floatSignificand * 2 ^ (floatExponent - 150)`. -/
def floatSignificand (bits : Nat) : Nat := 8388608 + bits % 8388608

/-! ## Strings and buffer slices -/

theorem strlen_le_length (s : List Nat) : strlen s ≤ s.length := by
  induction s with
  | nil => simp [strlen]
  | cons c cs ih =>
    unfold strlen
    split
    · simp
    · simp; omega

theorem strlen_of_no_nul (s : List Nat) (h : ∀ c ∈ s, c ≠ 0) : strlen s = s.length := by
  induction s with
  | nil => simp [strlen]
  | cons c cs ih =>
    have hc : c ≠ 0 := h c (by simp)
    have hcs : ∀ x ∈ cs, x ≠ 0 := fun x hx => h x (by simp [hx])
    simp [strlen, hc, ih hcs]

namespace Buffer

theorem slice_length (b : Buffer) (lo len : Nat) : (b.slice lo len).length = len := by
  simp [slice]

theorem slice_succ (b : Buffer) (lo len : Nat) :
    b.slice lo (len + 1) = b.slice lo len ++ [b.mem (lo + len)] := by
  simp [slice, List.range_succ]

theorem slice_congr (b c : Buffer) (lo len : Nat)
    (h : ∀ i, i < len → b.mem (lo + i) = c.mem (lo + i)) : b.slice lo len = c.slice lo len := by
  unfold slice
  apply List.map_congr_left
  intro i hi
  exact h i (List.mem_range.mp hi)

theorem slice_eq_of_getD (b : Buffer) (lo : Nat) (l : List Nat)
    (h : ∀ i, i < l.length → b.mem (lo + i) = l.getD i 0) : b.slice lo l.length = l := by
  apply List.ext_getElem
  · simp [slice]
  · intro i h1 h2
    have := h i h2
    rw [List.getD_eq_getElem _ _ h2] at this
    simp [slice, this]

theorem slice_add (b : Buffer) (lo m n : Nat) :
    b.slice lo (m + n) = b.slice lo m ++ b.slice (lo + m) n := by
  induction n with
  | zero => simp [slice]
  | succ n ih => rw [← Nat.add_assoc, slice_succ, ih, slice_succ, List.append_assoc, Nat.add_assoc]

end Buffer

theorem Filled.length {past : Nat → Nat} {b : Buffer} {k : Nat} {l : List Nat}
    (h : Filled past b k l) : l.length = k := by
  rw [← h.1, Buffer.slice_length]

theorem filled_dBuffer (past : Nat → Nat) : Filled past (dBuffer past) 0 [] :=
  ⟨by simp [Buffer.slice], fun _ _ => rfl⟩

theorem Filled.store {past : Nat → Nat} {b : Buffer} {k : Nat} {l : List Nat}
    (h : Filled past b k l) (v : Nat) : Filled past (b.store k v) (k + 1) (l ++ [v % 256]) := by
  refine ⟨?_, ?_⟩
  · rw [Buffer.slice_succ, ← h.1]
    congr 1
    · apply Buffer.slice_congr
      intro i hi
      have : 0 + i ≠ k := by omega
      simp only [Buffer.store, this, if_false]
    · simp [Buffer.store]
  · intro j hj
    have : j ≠ k := by omega
    simp only [Buffer.store, this, if_false]
    exact h.2 j (by omega)

theorem Filled.memcpy {past : Nat → Nat} {b : Buffer} {k : Nat} {l : List Nat}
    (h : Filled past b k l) (src : List Nat) (n : Nat) (hn : n ≤ src.length) :
    Filled past (b.memcpy k src n) (k + n) (l ++ src.take n) := by
  refine ⟨?_, ?_⟩
  · rw [Buffer.slice_add, ← h.1]
    congr 1
    · apply Buffer.slice_congr
      intro i hi
      have : ¬ (k ≤ 0 + i ∧ 0 + i < k + n) := by omega
      simp only [Buffer.memcpy, this, if_false]
    · have hl : (src.take n).length = n := by simp [hn]
      have := Buffer.slice_eq_of_getD (b.memcpy k src n) (0 + k) (src.take n) (by
        intro i hi
        rw [hl] at hi
        have h1 : k ≤ 0 + k + i ∧ 0 + k + i < k + n := by omega
        have h2 : 0 + k + i - k = i := by omega
        simp only [Buffer.memcpy, h1, and_self, if_true, h2]
        simp [List.getElem?_take, hi])
      rw [hl] at this
      exact this
  · intro j hj
    have : ¬ (k ≤ j ∧ j < k + n) := by omega
    simp only [Buffer.memcpy, this, if_false]
    exact h.2 j (by omega)

theorem Filled.skip {past : Nat → Nat} {b : Buffer} {k : Nat} {l : List Nat}
    (h : Filled past b k l) (m : Nat) (hm : k + m ≤ kSFBLEBufferSize) :
    Filled past b (k + m) (l ++ List.replicate m 0) := by
  refine ⟨?_, fun j hj => h.2 j (by omega)⟩
  rw [Buffer.slice_add, ← h.1]
  congr 1
  have := Buffer.slice_eq_of_getD b (0 + k) (List.replicate m 0) (by
    intro i hi
    simp at hi
    rw [h.2 _ (by omega)]
    have : 0 + k + i < kSFBLEBufferSize := by omega
    simp only [dBuffer, this, if_true]
    simp [List.getElem?_replicate, hi])
  simpa using this

/-! ## The encoders -/

theorem encode_string_snd (b : Buffer) (k : Nat) (s : List Nat) (n : Nat) (h1 : 1 ≤ n) :
    (encode_string b k (some s) n).2 = k + 1 + n := by
  have : ¬ n < 1 := by omega
  simp [encode_string, this]

theorem encode_string_filled {past : Nat → Nat} {b : Buffer} {k : Nat} {l : List Nat}
    (h : Filled past b k l) (s : List Nat) (n : Nat) (h1 : 1 ≤ n) (h2 : n ≤ s.length) :
    Filled past (encode_string b k (some s) n).1 (k + 1 + n) (l ++ n % 256 :: s.take n) := by
  have : ¬ n < 1 := by omega
  have hf := (h.store n).memcpy s n h2
  simpa [encode_string, this] using hf

theorem encode_attributes_filled {past : Nat → Nat} {b : Buffer} {k : Nat} {l : List Nat}
    (h : Filled past b k l) (g : Globals) (propType : Nat) (hk : k + 4 ≤ kSFBLEBufferSize) :
    Filled past (encode_attributes g b k propType).buffer (k + 4)
      (l ++ [propType % 256, g.sort_pos % 256, 0, 0]) := by
  have hf := ((h.store propType).store g.sort_pos).skip 2 (by omega)
  simpa [encode_attributes, Nat.add_assoc] using hf

theorem encode_title_iNext (g : Globals) (b : Buffer) (k : Nat) :
    (encode_title g b k).iNext = k + (titleBlock g).length := by
  unfold encode_title titleBlock Globals.pendingTitle
  by_cases h0 : strlen g.titleBuffer = 0
  · simp [h0]
  · have h1 : 1 ≤ strlen g.titleBuffer := by omega
    have hl := strlen_le_length g.titleBuffer
    simp [h0, encode_string_snd _ _ _ _ h1, hl]
    omega

theorem encode_title_filled {past : Nat → Nat} {b : Buffer} {k : Nat} {l : List Nat}
    (h : Filled past b k l) (g : Globals)
    (hk : k + 2 + 2 * strlen g.titleBuffer ≤ kSFBLEBufferSize) :
    Filled past (encode_title g b k).buffer (encode_title g b k).iNext
      (l ++ titleBlock g) := by
  rw [encode_title_iNext]
  unfold encode_title titleBlock Globals.pendingTitle
  by_cases h0 : strlen g.titleBuffer = 0
  · simpa [h0] using h
  · have h1 : 1 ≤ strlen g.titleBuffer := by omega
    have hl := strlen_le_length g.titleBuffer
    have hb : strlen g.titleBuffer % 256 = strlen g.titleBuffer :=
      Nat.mod_eq_of_lt (by unfold kSFBLEBufferSize at hk; omega)
    have hf := (encode_string_filled (h.store kBlkTitle) g.titleBuffer _ h1 hl).skip
      (strlen g.titleBuffer) (by omega)
    rw [hb] at hf
    have e : k + 1 + 1 + strlen g.titleBuffer + strlen g.titleBuffer
        = k + (strlen g.titleBuffer + strlen g.titleBuffer + 1 + 1) := by omega
    simpa [h0, kBlkTitle, hl, e] using hf

theorem encode_title_globals (g : Globals) (b : Buffer) (k : Nat) :
    (encode_title g b k).globals =
      if strlen g.titleBuffer = 0 then g
      else { g with titleBuffer := memset g.titleBuffer 0 kSFBLEMaxString } := by
  unfold encode_title
  by_cases h0 : strlen g.titleBuffer = 0 <;> simp [h0]

theorem nameBlock_length_le (strName : List Nat) : (nameBlock strName).length ≤ 65 := by
  unfold nameBlock
  split
  · simp
  · simp

theorem titleBlock_length (g : Globals) :
    (titleBlock g).length =
      if strlen g.titleBuffer = 0 then 0 else 2 + 2 * strlen g.titleBuffer := by
  unfold titleBlock Globals.pendingTitle
  have hl := strlen_le_length g.titleBuffer
  split
  · simp
  · simp [hl]; omega

/-- The layout of the core block: attributes, name block, title block. -/
theorem encode_core_filled (past : Nat → Nat) (g : Globals) (hg : g.WF) (strName : List Nat)
    (propType : Nat) :
    Filled past (encode_core g (dBuffer past) 0 strName propType).buffer
      (encode_core g (dBuffer past) 0 strName propType).iNext
      ([propType % 256, g.sort_pos, 0, 0] ++ nameBlock strName ++ titleBlock g) := by
  obtain ⟨hs, hlen, ht⟩ := hg
  unfold kSFBLEMaxString at hlen ht
  have ha := encode_attributes_filled (filled_dBuffer past) g propType (by decide)
  rw [Nat.mod_eq_of_lt hs] at ha
  have hname : Filled past
      (encode_string (encode_attributes g (dBuffer past) 0 propType).buffer
        (encode_attributes g (dBuffer past) 0 propType).iNext (some strName)
        (if strlen strName > kSFBLEMaxString then kSFBLEMaxString else strlen strName)).1
      (encode_string (encode_attributes g (dBuffer past) 0 propType).buffer
        (encode_attributes g (dBuffer past) 0 propType).iNext (some strName)
        (if strlen strName > kSFBLEMaxString then kSFBLEMaxString else strlen strName)).2
      ([propType % 256, g.sort_pos, 0, 0] ++ nameBlock strName) := by
    have hi : (encode_attributes g (dBuffer past) 0 propType).iNext = 0 + 4 := rfl
    have hmin : (if strlen strName > kSFBLEMaxString then kSFBLEMaxString else strlen strName)
        = min (strlen strName) 64 := by
      unfold kSFBLEMaxString; split <;> omega
    rw [hi, hmin]
    unfold nameBlock
    by_cases h0 : strlen strName = 0
    · simpa [h0, encode_string] using ha
    · have hl := strlen_le_length strName
      have h1 : 1 ≤ min (strlen strName) 64 := by omega
      have hf := encode_string_filled ha strName (min (strlen strName) 64) h1 (by omega)
      rw [encode_string_snd _ _ _ _ h1]
      have hm : min (strlen strName) 64 % 256 = min (strlen strName) 64 :=
        Nat.mod_eq_of_lt (by omega)
      rw [hm] at hf
      simpa [h0] using hf
  have hk := hname.length
  have hnb := nameBlock_length_le strName
  have ht' : strlen (encode_attributes g (dBuffer past) 0 propType).globals.titleBuffer
      = strlen g.titleBuffer := rfl
  have hf := encode_title_filled hname (encode_attributes g (dBuffer past) 0 propType).globals
    (by rw [ht', ← hk]; unfold kSFBLEBufferSize; simp; omega)
  have htb : titleBlock (encode_attributes g (dBuffer past) 0 propType).globals
      = titleBlock g := rfl
  rw [htb] at hf
  exact hf

theorem encode_core_globals (g : Globals) (b : Buffer) (k : Nat) (strName : List Nat)
    (propType : Nat) :
    (encode_core g b k strName propType).globals =
      { sort_pos := (g.sort_pos + 1) % 256
        titleBuffer := if strlen g.titleBuffer = 0 then g.titleBuffer
          else memset g.titleBuffer 0 kSFBLEMaxString } := by
  unfold encode_core
  simp only [encode_title_globals]
  by_cases h0 : strlen g.titleBuffer = 0 <;> simp [encode_attributes, h0]

/-! ## The blocks attached by the public operations -/

theorem encode_core_iNext_le (past : Nat → Nat) (g : Globals) (hg : g.WF) (strName : List Nat)
    (propType : Nat) : (encode_core g (dBuffer past) 0 strName propType).iNext ≤ 197 := by
  have hf := (encode_core_filled past g hg strName propType).length
  have h1 := nameBlock_length_le strName
  have h2 := titleBlock_length g
  obtain ⟨-, -, ht⟩ := hg
  unfold kSFBLEMaxString at ht
  rw [← hf]
  simp only [List.length_append, List.length_cons, List.length_nil]
  split at h2 <;> omega

theorem add_basic_bleChar (past : Nat → Nat) (g : Globals) (hg : g.WF)
    (bleChar : BLECharacteristic) (strName : List Nat) (propType : Nat) :
    (add_basic past g bleChar strName propType).bleChar
      = bleChar ++ [⟨kBLEDescSFEPropCoreUUID,
          [propType % 256, g.sort_pos, 0, 0] ++ nameBlock strName ++ titleBlock g⟩] := by
  have hf := encode_core_filled past g hg strName propType
  have hk := encode_core_iNext_le past g hg strName propType
  have hm : (encode_core g (dBuffer past) 0 strName propType).iNext % 65536
      = (encode_core g (dBuffer past) 0 strName propType).iNext := Nat.mod_eq_of_lt (by omega)
  simp only [add_basic, set_descriptor, hm, hf.1]

/-- The block tag and the fixed-size payload that `addInt`, `addFloat` and `addRange` put
after the core block. -/
theorem tag_memcpy_slice {past : Nat → Nat} {b : Buffer} {k : Nat} {l : List Nat}
    (h : Filled past b k l) (hk : k ≤ 197) (tag : Nat) (src : List Nat) (n : Nat)
    (hn : n = src.length) :
    ((b.store (k % 65536) tag).memcpy ((k % 65536 + 1) % 65536) src n).slice 0
        ((k % 65536 + 1) % 65536 + n) = l ++ tag % 256 :: src := by
  have h1 : k % 65536 = k := Nat.mod_eq_of_lt (by omega)
  have h2 : (k + 1) % 65536 = k + 1 := Nat.mod_eq_of_lt (by omega)
  rw [h1, h2]
  have hf := ((h.store tag).memcpy src n (by omega)).1
  rw [hf, hn]
  simp

theorem exec_bleChar (past : Nat → Nat) (g : Globals) (bleChar : BLECharacteristic) (c : Call)
    (hg : g.WF) (hc : c.Accepted) :
    (c.exec past g bleChar).bleChar
      = bleChar ++ [⟨kBLEDescSFEPropCoreUUID,
          [c.typeCode, g.sort_pos, 0, 0] ++ nameBlock c.strName ++ titleBlock g
            ++ c.payload⟩] := by
  cases c with
  | addBool n => simp [Call.exec, addBool, add_basic_bleChar, hg, Call.typeCode, Call.strName, Call.payload, kSFEPropTypeBool]
  | addString n => simp [Call.exec, addString, add_basic_bleChar, hg, Call.typeCode, Call.strName, Call.payload, kSFEPropTypeText]
  | addDate n => simp [Call.exec, addDate, add_basic_bleChar, hg, Call.typeCode, Call.strName, Call.payload, kSFEPropTypeDate]
  | addTime n => simp [Call.exec, addTime, add_basic_bleChar, hg, Call.typeCode, Call.strName, Call.payload, kSFEPropTypeTime]
  | addInt n i =>
    have hf := encode_core_filled past g hg n kSFEPropTypeInt
    have hk := encode_core_iNext_le past g hg n kSFEPropTypeInt
    have := tag_memcpy_slice hf hk kBlkIncrement (bytes32 i) 4 rfl
    simp only [Call.exec, addInt, set_descriptor, this]
    simp [Call.typeCode, Call.strName, Call.payload, kSFEPropTypeInt, kBlkIncrement]
  | addIntDefault n =>
    have hf := encode_core_filled past g hg n kSFEPropTypeInt
    have hk := encode_core_iNext_le past g hg n kSFEPropTypeInt
    have := tag_memcpy_slice hf hk kBlkIncrement (bytes32 1) 4 rfl
    simp only [Call.exec, addIntDefault, addInt, set_descriptor, this]
    simp [Call.typeCode, Call.strName, Call.payload, kSFEPropTypeInt, kBlkIncrement]
  | addFloat n i =>
    have hf := encode_core_filled past g hg n kSFEPropTypeFloat
    have hk := encode_core_iNext_le past g hg n kSFEPropTypeFloat
    have := tag_memcpy_slice hf hk kBlkIncrement (bytes32 i) 4 rfl
    simp only [Call.exec, addFloat, set_descriptor, this]
    simp [Call.typeCode, Call.strName, Call.payload, kSFEPropTypeFloat, kBlkIncrement]
  | addFloatDefault n =>
    have hf := encode_core_filled past g hg n kSFEPropTypeFloat
    have hk := encode_core_iNext_le past g hg n kSFEPropTypeFloat
    have := tag_memcpy_slice hf hk kBlkIncrement (bytes32 0x3C23D70A) 4 rfl
    simp only [Call.exec, addFloatDefault, addFloat, set_descriptor, this]
    simp [Call.typeCode, Call.strName, Call.payload, kSFEPropTypeFloat, kBlkIncrement]
  | addRange n lo hi =>
    have hf := encode_core_filled past g hg n kSFEPropTypeRange
    have hk := encode_core_iNext_le past g hg n kSFEPropTypeRange
    have := tag_memcpy_slice hf hk kBlkRange (bytes32 lo ++ bytes32 hi) 8 rfl
    simp only [Call.exec, addRange, set_descriptor, this]
    simp [Call.typeCode, Call.strName, Call.payload, kSFEPropTypeRange, kBlkRange]
  | addSelect n o =>
    cases o with
    | none => exact absurd hc (by simp [Call.Accepted])
    | some o =>
      obtain ⟨h1, h2⟩ : 1 ≤ strlen o ∧ strlen o ≤ 64 := hc
      have hf := encode_core_filled past g hg n kSFEPropTypeSelect
      have hk := encode_core_iNext_le past g hg n kSFEPropTypeSelect
      have hl := strlen_le_length o
      have hrej : ¬ (strlen o = 0 ∨ strlen o > kSFBLEMaxString) := by
        unfold kSFBLEMaxString; omega
      have e1 : (encode_core g (dBuffer past) 0 n kSFEPropTypeSelect).iNext % 65536
          = (encode_core g (dBuffer past) 0 n kSFEPropTypeSelect).iNext :=
        Nat.mod_eq_of_lt (by omega)
      have e2 : ((encode_core g (dBuffer past) 0 n kSFEPropTypeSelect).iNext + 1) % 65536
          = (encode_core g (dBuffer past) 0 n kSFEPropTypeSelect).iNext + 1 :=
        Nat.mod_eq_of_lt (by omega)
      have e3 : ((encode_core g (dBuffer past) 0 n kSFEPropTypeSelect).iNext + 1 + 1
          + strlen o) % 65536
          = (encode_core g (dBuffer past) 0 n kSFEPropTypeSelect).iNext + 1 + 1 + strlen o :=
        Nat.mod_eq_of_lt (by omega)
      have e4 : strlen o % 256 = strlen o := Nat.mod_eq_of_lt (by omega)
      have hs := (encode_string_filled (hf.store kBlkSelectOp) o (strlen o) h1 hl).1
      rw [e4] at hs
      simp only [Call.exec, addSelect, hrej, if_false, set_descriptor, e1, e2,
        encode_string_snd _ _ _ _ h1, e3, hs]
      simp [Call.typeCode, Call.strName, Call.payload, kSFEPropTypeSelect, kBlkSelectOp]

theorem exec_globals (past : Nat → Nat) (g : Globals) (bleChar : BLECharacteristic) (c : Call)
    (hc : c.Accepted) :
    (c.exec past g bleChar).globals =
      { sort_pos := (g.sort_pos + 1) % 256
        titleBuffer := if strlen g.titleBuffer = 0 then g.titleBuffer
          else memset g.titleBuffer 0 kSFBLEMaxString } := by
  cases c with
  | addSelect n o =>
    cases o with
    | none => exact absurd hc (by simp [Call.Accepted])
    | some o =>
      obtain ⟨h1, h2⟩ : 1 ≤ strlen o ∧ strlen o ≤ 64 := hc
      have hrej : ¬ (strlen o = 0 ∨ strlen o > kSFBLEMaxString) := by
        unfold kSFBLEMaxString; omega
      simp only [Call.exec, addSelect, hrej, if_false, encode_core_globals]
  | _ =>
    simp only [Call.exec, addBool, addString, addDate, addTime, add_basic, addInt,
      addIntDefault, addFloat, addFloatDefault, addRange, encode_core_globals]

/-! ## Invariants of the globals -/

theorem strlen_replicate_zero (n : Nat) : strlen (List.replicate n 0) = 0 := by
  cases n <;> simp [List.replicate, strlen]

theorem memset_zero_full (s : List Nat) (h : s.length = kSFBLEMaxString) :
    memset s 0 kSFBLEMaxString = List.replicate kSFBLEMaxString 0 := by
  simp [memset, h, List.drop_eq_nil_of_le]

theorem strlen_append_nul (l r : List Nat) (h : ∀ b ∈ l, b ≠ 0) :
    strlen (l ++ 0 :: r) = l.length := by
  induction l with
  | nil => simp [strlen]
  | cons c cs ih =>
    have hc : c ≠ 0 := h c (by simp)
    have hcs : ∀ x ∈ cs, x ≠ 0 := fun x hx => h x (by simp [hx])
    simp [strlen, hc, ih hcs]

/-- The globals stay well formed under every call. -/
theorem exec_WF (past : Nat → Nat) (g : Globals) (bleChar : BLECharacteristic) (c : Call)
    (hg : g.WF) : (c.exec past g bleChar).globals.WF := by
  by_cases hc : c.Accepted
  · rw [exec_globals past g bleChar c hc]
    obtain ⟨hs, hlen, ht⟩ := hg
    refine ⟨Nat.mod_lt _ (by decide), ?_, ?_⟩
    · by_cases h0 : strlen g.titleBuffer = 0
      · simpa [h0] using hlen
      · simp [h0, memset_zero_full _ hlen]
    · by_cases h0 : strlen g.titleBuffer = 0
      · simpa [h0] using ht
      · simp only [h0, if_false, memset_zero_full _ hlen, strlen_replicate_zero]
        decide
  · cases c with
    | addSelect n o =>
      cases o with
      | none => exact hg
      | some o =>
        have hrej : strlen o = 0 ∨ strlen o > kSFBLEMaxString := by
          have : ¬ (1 ≤ strlen o ∧ strlen o ≤ 64) := hc
          unfold kSFBLEMaxString; omega
        simpa [Call.exec, addSelect, hrej] using hg
    | _ => exact absurd trivial hc

/-- After an accepted call no title is stashed. -/
theorem exec_strlen_title (past : Nat → Nat) (g : Globals) (bleChar : BLECharacteristic)
    (c : Call) (hg : g.WF) (hc : c.Accepted) :
    strlen (c.exec past g bleChar).globals.titleBuffer = 0 := by
  rw [exec_globals past g bleChar c hc]
  by_cases h0 : strlen g.titleBuffer = 0
  · simp [h0]
  · simp [h0, memset_zero_full _ hg.2.1, strlen_replicate_zero]

theorem titleBlock_of_empty (g : Globals) (h : strlen g.titleBuffer = 0) : titleBlock g = [] := by
  simp [titleBlock, h]

theorem nameBlock_of_no_nul (strName : List Nat) (hnul : ∀ b ∈ strName, b ≠ 0)
    (hn : 1 ≤ strName.length) :
    nameBlock strName = min strName.length 64 :: strName.take (min strName.length 64) := by
  have h := strlen_of_no_nul strName hnul
  have h0 : strName.length ≠ 0 := by omega
  simp [nameBlock, h, h0]

theorem take_no_nul (s : List Nat) (n : Nat) (hn : n ≤ strlen s) : ∀ b ∈ s.take n, b ≠ 0 := by
  induction s generalizing n with
  | nil => simp
  | cons c cs ih =>
    cases n with
    | zero => simp
    | succ n =>
      by_cases hc : c = 0
      · simp [strlen, hc] at hn
      · simp only [strlen, hc, if_false] at hn
        intro b hb
        simp only [List.take_succ_cons, List.mem_cons] at hb
        rcases hb with rfl | hb
        · exact hc
        · exact ih n (by omega) b hb

theorem addTitle_titleBuffer (g : Globals) (t : List Nat) (h0 : strlen t ≠ 0) :
    (addTitle g (some t)).titleBuffer
      = t.take (min (strlen t) 63) ++ 0 :: g.titleBuffer.drop (min (strlen t) 63 + 1) := by
  simp [addTitle, h0, strlcpy, kSFBLEMaxString]

/-- The globals stay well formed under `addTitle`. -/
theorem addTitle_WF (g : Globals) (strTitle : Option (List Nat)) (hg : g.WF) :
    (addTitle g strTitle).WF := by
  cases strTitle with
  | none => exact hg
  | some t =>
    by_cases h0 : strlen t = 0
    · simpa [addTitle, h0] using hg
    · obtain ⟨hs, hlen, ht⟩ := hg
      have hl := strlen_le_length t
      have hnul := take_no_nul t (min (strlen t) 63) (Nat.min_le_left _ _)
      have hs2 := strlen_append_nul _ (g.titleBuffer.drop (min (strlen t) 63 + 1)) hnul
      have hlt : (t.take (min (strlen t) 63)).length = min (strlen t) 63 := by
        simp; omega
      unfold kSFBLEMaxString at hlen ht
      refine ⟨by simpa [addTitle, h0] using hs, ?_, ?_⟩
      · rw [addTitle_titleBuffer g t h0]
        simp only [List.length_append, List.length_cons, List.length_drop, hlt, hlen,
          kSFBLEMaxString]
        omega
      · rw [addTitle_titleBuffer g t h0, hs2, hlt]
        unfold kSFBLEMaxString
        omega

theorem addTitle_sensors (g : Globals) (hg : g.WF) :
    (addTitle g (some [83, 101, 110, 115, 111, 114, 115])).WF ∧
    strlen (addTitle g (some [83, 101, 110, 115, 111, 114, 115])).titleBuffer = 7 ∧
    (addTitle g (some [83, 101, 110, 115, 111, 114, 115])).pendingTitle
      = [83, 101, 110, 115, 111, 114, 115] := by
  obtain ⟨hs, hlen, ht⟩ := hg
  unfold kSFBLEMaxString at hlen ht
  refine ⟨⟨hs, ?_, ?_⟩, ?_, ?_⟩ <;>
    simp [addTitle, strlcpy, strlen, kSFBLEMaxString, Globals.pendingTitle, hlen]

/-- The bytes around the name in a block: byte 4 is the length byte, the name follows, and
the rest comes after it. -/
theorem bytes_around_name (ty sp m : Nat) (nm rest : List Nat) (h : nm.length = m) :
    ([ty, sp, 0, 0] ++ m :: nm ++ rest)[4]? = some m ∧
    (([ty, sp, 0, 0] ++ m :: nm ++ rest).drop 5).take m = nm ∧
    ([ty, sp, 0, 0] ++ m :: nm ++ rest).drop (5 + m) = rest := by
  refine ⟨by simp, ?_, ?_⟩
  · simp only [List.cons_append, List.nil_append, List.drop_succ_cons, List.drop_zero]
    rw [List.take_append_of_le_length (by omega), List.take_of_length_le (by omega)]
  · simp only [List.cons_append, List.nil_append, Nat.add_comm 5 m, List.drop_succ_cons]
    rw [List.drop_append_of_le_length (by omega), List.drop_of_length_le (by omega)]
    simp

/-- The title block starts with the tag, the length and the stashed title. -/
theorem titleBlock_take (g : Globals) (h : 1 ≤ strlen g.titleBuffer) (rest : List Nat) :
    (titleBlock g ++ rest).take (2 + strlen g.titleBuffer)
      = 1 :: strlen g.titleBuffer :: g.pendingTitle := by
  have h0 : strlen g.titleBuffer ≠ 0 := by omega
  have hl := strlen_le_length g.titleBuffer
  have hp : g.pendingTitle.length = strlen g.titleBuffer := by
    simp [Globals.pendingTitle, hl]
  simp only [titleBlock, h0, if_false, List.cons_append, Nat.add_comm 2, List.take_succ_cons,
    List.append_assoc]
  rw [List.take_append_of_le_length (by omega), List.take_of_length_le (by omega)]

/-! ## Claims -/

/-- C1: every add operation that attaches (each of the eight, `addSelect` when its option
string is accepted) adds exactly one descriptor to the characteristic, and the first four
bytes of its value are the type code (bool 1, int 2, range 3, text 4, date 5, time 6,
float 7, select 8), the value the sort counter had before the call, 0 and 0. -/
theorem attribute_bytes (past : Nat → Nat) (g : Globals) (bleChar : BLECharacteristic)
    (c : Call) (hg : g.WF) (hc : c.Accepted) :
    ∃ d, (c.exec past g bleChar).bleChar = bleChar ++ [d] ∧
      d.value.take 4 = [c.typeCode, g.sort_pos, 0, 0] :=
  ⟨_, exec_bleChar past g bleChar c hg hc, by simp⟩

theorem attribute_bytes_witness :
    Globals.WF ⟨7, 65 :: 66 :: List.replicate 62 0⟩ ∧
    Call.Accepted (.addSelect [110] (some [97, 124, 98])) ∧
    ∃ d, ((Call.addSelect [110] (some [97, 124, 98])).exec (fun _ => 0)
        ⟨7, 65 :: 66 :: List.replicate 62 0⟩ []).bleChar = [] ++ [d] ∧
      d.value.take 4 = [8, 7, 0, 0] :=
  ⟨by decide, by decide,
    attribute_bytes (fun _ => 0) ⟨7, 65 :: 66 :: List.replicate 62 0⟩ []
      (.addSelect [110] (some [97, 124, 98])) (by decide) (by decide)⟩

/-- C2: for a name of `n ≥ 1` characters, none of them NUL, every attaching add operation
attaches a block whose byte 4 is `min n 64` and whose bytes 5 to `4 + min n 64` are the first
`min n 64` characters of the name; what follows them (the title block and the payload of the
operation) does not come from the name. A name of 100 characters therefore appears as its
first 64 characters behind the length byte 64. -/
theorem name_bytes_clamped (past : Nat → Nat) (g : Globals) (bleChar : BLECharacteristic)
    (c : Call) (hg : g.WF) (hc : c.Accepted) (hnul : ∀ b ∈ c.strName, b ≠ 0)
    (hn : 1 ≤ c.strName.length) :
    ∃ d, (c.exec past g bleChar).bleChar = bleChar ++ [d] ∧
      d.value[4]? = some (min c.strName.length 64) ∧
      (d.value.drop 5).take (min c.strName.length 64)
        = c.strName.take (min c.strName.length 64) ∧
      d.value.drop (5 + min c.strName.length 64) = titleBlock g ++ c.payload ∧
      (c.strName.length = 100 →
        d.value[4]? = some 64 ∧ (d.value.drop 5).take 64 = c.strName.take 64 ∧
          d.value.drop 69 = titleBlock g ++ c.payload) := by
  refine ⟨_, exec_bleChar past g bleChar c hg hc, ?_⟩
  rw [nameBlock_of_no_nul _ hnul hn]
  have key := fun m (hm : m = min c.strName.length 64) =>
    bytes_around_name c.typeCode g.sort_pos m (c.strName.take m) (titleBlock g ++ c.payload)
      (by rw [hm]; simp)
  simp only [List.append_assoc] at key ⊢
  refine ⟨(key _ rfl).1, (key _ rfl).2.1, (key _ rfl).2.2, ?_⟩
  intro h100
  have h64 : min c.strName.length 64 = 64 := by omega
  rw [h64]
  exact key 64 h64.symm

theorem name_bytes_clamped_witness :
    Globals.WF Globals.init ∧ Call.Accepted (.addRange (List.replicate 100 65) 10 20) ∧
    (∀ b ∈ (Call.addRange (List.replicate 100 65) 10 20).strName, b ≠ 0) ∧
    1 ≤ (Call.addRange (List.replicate 100 65) 10 20).strName.length ∧
    ∃ d, ((Call.addRange (List.replicate 100 65) 10 20).exec (fun _ => 0)
        Globals.init []).bleChar = [] ++ [d] ∧
      d.value[4]? = some (min (Call.addRange (List.replicate 100 65) 10 20).strName.length 64) ∧
      (d.value.drop 5).take (min (Call.addRange (List.replicate 100 65) 10 20).strName.length 64)
        = (Call.addRange (List.replicate 100 65) 10 20).strName.take
            (min (Call.addRange (List.replicate 100 65) 10 20).strName.length 64) ∧
      d.value.drop (5 + min (Call.addRange (List.replicate 100 65) 10 20).strName.length 64)
        = titleBlock Globals.init ++ (Call.addRange (List.replicate 100 65) 10 20).payload ∧
      ((Call.addRange (List.replicate 100 65) 10 20).strName.length = 100 →
        d.value[4]? = some 64 ∧
          (d.value.drop 5).take 64
            = (Call.addRange (List.replicate 100 65) 10 20).strName.take 64 ∧
          d.value.drop 69
            = titleBlock Globals.init ++ (Call.addRange (List.replicate 100 65) 10 20).payload) :=
  ⟨by decide, by decide, by simp [Call.strName], by simp [Call.strName],
    name_bytes_clamped (fun _ => 0) Globals.init [] (.addRange (List.replicate 100 65) 10 20)
      (by decide) (by decide) (by simp [Call.strName]) (by simp [Call.strName])⟩

/-- C3: when a title of `t ≥ 1` characters is stashed and the name has `n ≥ 1` characters,
none of them NUL, the block attached by the next attaching add operation holds, from offset
`5 + min n 64` on, the title tag 1, the length byte `t` and the `t` characters of the title.
After `addTitle("Sensors")` these bytes are 1, 7, 'S', 'e', 'n', 's', 'o', 'r', 's'. -/
theorem title_bytes_after_name (past : Nat → Nat) (g : Globals) (bleChar : BLECharacteristic)
    (c : Call) (hg : g.WF) (hc : c.Accepted) (hnul : ∀ b ∈ c.strName, b ≠ 0)
    (hn : 1 ≤ c.strName.length) :
    (1 ≤ strlen g.titleBuffer →
      ∃ d, (c.exec past g bleChar).bleChar = bleChar ++ [d] ∧
        (d.value.drop (5 + min c.strName.length 64)).take (2 + strlen g.titleBuffer)
          = 1 :: strlen g.titleBuffer :: g.pendingTitle) ∧
    (∃ d, (c.exec past (addTitle g (some [83, 101, 110, 115, 111, 114, 115])) bleChar).bleChar
          = bleChar ++ [d] ∧
        (d.value.drop (5 + min c.strName.length 64)).take 9
          = [1, 7, 83, 101, 110, 115, 111, 114, 115]) := by
  have gen : ∀ g' : Globals, g'.WF → 1 ≤ strlen g'.titleBuffer →
      ∃ d, (c.exec past g' bleChar).bleChar = bleChar ++ [d] ∧
        (d.value.drop (5 + min c.strName.length 64)).take (2 + strlen g'.titleBuffer)
          = 1 :: strlen g'.titleBuffer :: g'.pendingTitle := by
    intro g' hg' ht
    refine ⟨_, exec_bleChar past g' bleChar c hg' hc, ?_⟩
    rw [nameBlock_of_no_nul _ hnul hn]
    have key := bytes_around_name c.typeCode g'.sort_pos (min c.strName.length 64)
      (c.strName.take (min c.strName.length 64)) (titleBlock g' ++ c.payload) (by simp)
    simp only [List.append_assoc] at key ⊢
    rw [key.2.2]
    exact titleBlock_take g' ht c.payload
  refine ⟨gen g hg, ?_⟩
  obtain ⟨hw, hlen, hpend⟩ := addTitle_sensors g hg
  obtain ⟨d, hd, hv⟩ := gen _ hw (by omega)
  rw [hlen, hpend] at hv
  exact ⟨d, hd, hv⟩

theorem title_bytes_after_name_witness :
    Globals.WF ⟨3, 84 :: 49 :: List.replicate 62 0⟩ ∧
    Call.Accepted (.addBool [76, 69, 68]) ∧
    (∀ b ∈ (Call.addBool [76, 69, 68]).strName, b ≠ 0) ∧
    1 ≤ (Call.addBool [76, 69, 68]).strName.length ∧
    1 ≤ strlen (Globals.mk 3 (84 :: 49 :: List.replicate 62 0)).titleBuffer ∧
    ∃ d, ((Call.addBool [76, 69, 68]).exec (fun _ => 0)
        ⟨3, 84 :: 49 :: List.replicate 62 0⟩ []).bleChar = [] ++ [d] ∧
      (d.value.drop (5 + min (Call.addBool [76, 69, 68]).strName.length 64)).take
          (2 + strlen (Globals.mk 3 (84 :: 49 :: List.replicate 62 0)).titleBuffer)
        = 1 :: strlen (Globals.mk 3 (84 :: 49 :: List.replicate 62 0)).titleBuffer
            :: (Globals.mk 3 (84 :: 49 :: List.replicate 62 0)).pendingTitle :=
  ⟨by decide, by decide, by decide, by decide, by decide,
    (title_bytes_after_name (fun _ => 0) ⟨3, 84 :: 49 :: List.replicate 62 0⟩ []
      (.addBool [76, 69, 68]) (by decide) (by decide) (by decide) (by decide)).1 (by decide)⟩

/-- The offset `encode_core` returns from offset 0: four attribute bytes, the name block, and
for a stashed title of `t` characters `2 + 2 * t` more. -/
theorem encode_core_iNext (past : Nat → Nat) (g : Globals) (hg : g.WF) (strName : List Nat)
    (propType : Nat) :
    (encode_core g (dBuffer past) 0 strName propType).iNext
      = 4 + (if strlen strName = 0 then 0 else 1 + min (strlen strName) 64)
          + (if strlen g.titleBuffer = 0 then 0 else 2 + 2 * strlen g.titleBuffer) := by
  have hf := (encode_core_filled past g hg strName propType).length
  rw [← hf, ← titleBlock_length]
  have hl := strlen_le_length strName
  simp only [List.length_append, List.length_cons, List.length_nil, nameBlock]
  split
  · simp
  · simp; omega

/-- C4: after `addTitle("Sensors")`, `encode_core` for the name "x" returns 22 from offset 0,
where the formula of the claim, 4 + (1 + 1) + (2 + 7), gives 15: the title length is counted
twice. The last byte written is the final title character at index 14; `addInt` then puts
the increment tag at index 22, so seven bytes that belong to nothing lie between the title
and the tag. -/
theorem encode_core_counts_title_twice :
    (encode_core (addTitle Globals.init (some [83, 101, 110, 115, 111, 114, 115]))
        (dBuffer fun _ => 0) 0 [120] kSFEPropTypeInt).iNext = 22 ∧
    (encode_core (addTitle Globals.init (some [83, 101, 110, 115, 111, 114, 115]))
        (dBuffer fun _ => 0) 0 [120] kSFEPropTypeInt).buffer.top = 15 ∧
    0 + 4 + (1 + min 1 64) + (2 + 7) = 15 ∧
    (addInt (fun _ => 0) (addTitle Globals.init (some [83, 101, 110, 115, 111, 114, 115]))
        [] [120] 1).bleChar.map BLEDescriptor.value
      = [[2, 0, 0, 0, 1, 120, 1, 7, 83, 101, 110, 115, 111, 114, 115,
          0, 0, 0, 0, 0, 0, 0, 4, 1, 0, 0, 0]] := by
  decide

/-- C5: after any attaching add operation, of whichever property type, no title is stashed;
the core block that `encode_core` builds for the next property (any name, any type code) is
then the four attribute bytes and the name block alone, and the block the next attaching
operation adds holds nothing between the name block and its own payload. -/
theorem title_used_once (past past2 : Nat → Nat) (g : Globals) (bleChar : BLECharacteristic)
    (c1 c2 : Call) (hg : g.WF) (h1 : c1.Accepted) (h2 : c2.Accepted) :
    strlen (c1.exec past g bleChar).globals.titleBuffer = 0 ∧
    (c1.exec past g bleChar).globals.pendingTitle = [] ∧
    (encode_core (c1.exec past g bleChar).globals (dBuffer past2) 0 c2.strName
        c2.typeCode).iNext = 4 + (nameBlock c2.strName).length ∧
    (encode_core (c1.exec past g bleChar).globals (dBuffer past2) 0 c2.strName
        c2.typeCode).buffer.slice 0 (4 + (nameBlock c2.strName).length)
      = [c2.typeCode, (c1.exec past g bleChar).globals.sort_pos, 0, 0]
          ++ nameBlock c2.strName ∧
    ∃ d, (c2.exec past2 (c1.exec past g bleChar).globals (c1.exec past g bleChar).bleChar).bleChar
        = (c1.exec past g bleChar).bleChar ++ [d] ∧
      d.value = [c2.typeCode, (c1.exec past g bleChar).globals.sort_pos, 0, 0]
          ++ nameBlock c2.strName ++ c2.payload := by
  have hw := exec_WF past g bleChar c1 hg
  have h0 := exec_strlen_title past g bleChar c1 hg h1
  have hf := encode_core_filled past2 _ hw c2.strName c2.typeCode
  have htc : c2.typeCode % 256 = c2.typeCode := by cases c2 <;> rfl
  rw [titleBlock_of_empty _ h0, htc, List.append_nil] at hf
  have hk := hf.length
  have hk4 : (encode_core (c1.exec past g bleChar).globals (dBuffer past2) 0 c2.strName
      c2.typeCode).iNext = 4 + (nameBlock c2.strName).length := by
    rw [← hk]; simp; omega
  refine ⟨h0, by simp [Globals.pendingTitle, h0], hk4, ?_, _,
    exec_bleChar past2 _ _ c2 hw h2, ?_⟩
  · rw [← hk4]; exact hf.1
  · simp [titleBlock_of_empty _ h0]

theorem title_used_once_witness :
    Globals.WF ⟨255, 84 :: List.replicate 63 0⟩ ∧
    Call.Accepted (.addFloat [102] 1065353216) ∧ Call.Accepted (.addTime [116]) ∧
    strlen ((Call.addFloat [102] 1065353216).exec (fun _ => 0)
      ⟨255, 84 :: List.replicate 63 0⟩ []).globals.titleBuffer = 0 :=
  ⟨by decide, by decide, by decide,
    (title_used_once (fun _ => 0) (fun _ => 0) ⟨255, 84 :: List.replicate 63 0⟩ []
      (.addFloat [102] 1065353216) (.addTime [116]) (by decide) (by decide) (by decide)).1⟩

/-- C6: with no title stashed and a name of `n ≥ 1` characters, none of them NUL, the
operations `addBool`, `addString`, `addDate` and `addTime` attach a block of exactly
`5 + min n 64` bytes: the four attribute bytes, the length byte of the name and the name
characters, and nothing else. -/
theorem basic_block_without_title (past : Nat → Nat) (g : Globals)
    (bleChar : BLECharacteristic) (c : Call) (hg : g.WF) (hb : c.Basic)
    (ht : strlen g.titleBuffer = 0) (hnul : ∀ b ∈ c.strName, b ≠ 0)
    (hn : 1 ≤ c.strName.length) :
    ∃ d, (c.exec past g bleChar).bleChar = bleChar ++ [d] ∧
      d.value.length = 5 + min c.strName.length 64 ∧
      d.value = [c.typeCode, g.sort_pos, 0, 0]
        ++ min c.strName.length 64 :: c.strName.take (min c.strName.length 64) := by
  have hc : c.Accepted := by cases c <;> trivial
  have hp : c.payload = [] := by
    cases c <;> first | rfl | exact absurd hb (by simp [Call.Basic])
  refine ⟨_, exec_bleChar past g bleChar c hg hc, ?_, ?_⟩
  · simp [titleBlock_of_empty _ ht, hp, nameBlock_of_no_nul _ hnul hn]; omega
  · simp [titleBlock_of_empty _ ht, hp, nameBlock_of_no_nul _ hnul hn]

theorem basic_block_without_title_witness :
    Globals.WF Globals.init ∧ Call.Basic (.addDate [100, 97, 121]) ∧
    strlen Globals.init.titleBuffer = 0 ∧
    (∀ b ∈ (Call.addDate [100, 97, 121]).strName, b ≠ 0) ∧
    1 ≤ (Call.addDate [100, 97, 121]).strName.length ∧
    ∃ d, ((Call.addDate [100, 97, 121]).exec (fun _ => 0) Globals.init []).bleChar = [] ++ [d] ∧
      d.value.length = 5 + min (Call.addDate [100, 97, 121]).strName.length 64 ∧
      d.value = [5, 0, 0, 0] ++ min (Call.addDate [100, 97, 121]).strName.length 64 ::
        (Call.addDate [100, 97, 121]).strName.take
          (min (Call.addDate [100, 97, 121]).strName.length 64) :=
  ⟨by decide, by decide, by decide, by decide, by decide,
    basic_block_without_title (fun _ => 0) Globals.init [] (.addDate [100, 97, 121])
      (by decide) (by decide) (by decide) (by decide) (by decide)⟩

theorem bytes32_of_lt (v : Nat) (h : v < 4294967296) :
    bytes32 v = [v % 256, v / 256 % 256, v / 65536 % 256, v / 16777216] := by
  have : v / 16777216 % 256 = v / 16777216 := Nat.mod_eq_of_lt (by omega)
  simp [bytes32, this]

/-- The block an attaching call adds is the core block, as `encode_core` leaves it in the
buffer, followed by the payload of the call. -/
theorem exec_value_core (past : Nat → Nat) (g : Globals) (bleChar : BLECharacteristic)
    (c : Call) (hg : g.WF) (hc : c.Accepted) :
    (c.exec past g bleChar).bleChar
      = bleChar ++ [⟨kBLEDescSFEPropCoreUUID,
          (encode_core g (dBuffer past) 0 c.strName c.typeCode).buffer.slice 0
            (encode_core g (dBuffer past) 0 c.strName c.typeCode).iNext ++ c.payload⟩] := by
  have hf := encode_core_filled past g hg c.strName c.typeCode
  have htc : c.typeCode % 256 = c.typeCode := by cases c <;> rfl
  rw [hf.1, htc]
  exact exec_bleChar past g bleChar c hg hc

/-- C7: for every name and all 32-bit `vMin` and `vMax`, `addRange` attaches the core block
(the first `k` bytes of the buffer, `k` the offset `encode_core` returns) followed by exactly
nine bytes: the range tag 2, `vMin` in four little-endian bytes and `vMax` in four
little-endian bytes; the block has `k + 9` bytes. For `addRange(name, 10, 20)` the nine bytes
are 02 0A 00 00 00 14 00 00 00. -/
theorem addRange_block (past : Nat → Nat) (g : Globals) (bleChar : BLECharacteristic)
    (strName : List Nat) (vMin vMax : Nat) (hg : g.WF) (hlo : vMin < 4294967296)
    (hhi : vMax < 4294967296) :
    ∃ d, (addRange past g bleChar strName vMin vMax).bleChar = bleChar ++ [d] ∧
      d.value = (encode_core g (dBuffer past) 0 strName kSFEPropTypeRange).buffer.slice 0
          (encode_core g (dBuffer past) 0 strName kSFEPropTypeRange).iNext
        ++ [0x02, vMin % 256, vMin / 256 % 256, vMin / 65536 % 256, vMin / 16777216,
            vMax % 256, vMax / 256 % 256, vMax / 65536 % 256, vMax / 16777216] ∧
      d.value.length = (encode_core g (dBuffer past) 0 strName kSFEPropTypeRange).iNext + 9 ∧
      (vMin = 10 → vMax = 20 →
        d.value.drop (encode_core g (dBuffer past) 0 strName kSFEPropTypeRange).iNext
          = [0x02, 0x0A, 0x00, 0x00, 0x00, 0x14, 0x00, 0x00, 0x00]) := by
  have h : (addRange past g bleChar strName vMin vMax).bleChar
      = bleChar ++ [⟨kBLEDescSFEPropCoreUUID,
          (encode_core g (dBuffer past) 0 strName kSFEPropTypeRange).buffer.slice 0
            (encode_core g (dBuffer past) 0 strName kSFEPropTypeRange).iNext
          ++ 2 :: (bytes32 vMin ++ bytes32 vMax)⟩] :=
    exec_value_core past g bleChar (.addRange strName vMin vMax) hg trivial
  rw [bytes32_of_lt _ hlo, bytes32_of_lt _ hhi] at h
  refine ⟨_, h, rfl, ?_, ?_⟩
  · simp [Buffer.slice_length]
  · intro h10 h20
    subst h10 h20
    have hl := Buffer.slice_length
      (encode_core g (dBuffer past) 0 strName kSFEPropTypeRange).buffer 0
      (encode_core g (dBuffer past) 0 strName kSFEPropTypeRange).iNext
    rw [List.drop_append_of_le_length (by simp [Buffer.slice_length]),
      List.drop_of_length_le (by simp [Buffer.slice_length])]
    rfl

theorem addRange_block_witness :
    Globals.WF Globals.init ∧ (10 : Nat) < 4294967296 ∧ (20 : Nat) < 4294967296 ∧
    ∃ d, (addRange (fun _ => 0) Globals.init [] [114] 10 20).bleChar = [] ++ [d] ∧
      d.value = (encode_core Globals.init (dBuffer fun _ => 0) 0 [114]
            kSFEPropTypeRange).buffer.slice 0
          (encode_core Globals.init (dBuffer fun _ => 0) 0 [114] kSFEPropTypeRange).iNext
        ++ [0x02, 10 % 256, 10 / 256 % 256, 10 / 65536 % 256, 10 / 16777216,
            20 % 256, 20 / 256 % 256, 20 / 65536 % 256, 20 / 16777216] ∧
      d.value.length
        = (encode_core Globals.init (dBuffer fun _ => 0) 0 [114] kSFEPropTypeRange).iNext + 9 ∧
      ((10 : Nat) = 10 → (20 : Nat) = 20 →
        d.value.drop
            (encode_core Globals.init (dBuffer fun _ => 0) 0 [114] kSFEPropTypeRange).iNext
          = [0x02, 0x0A, 0x00, 0x00, 0x00, 0x14, 0x00, 0x00, 0x00]) :=
  ⟨by decide, by decide, by decide,
    addRange_block (fun _ => 0) Globals.init [] [114] 10 20 (by decide) (by decide)
      (by decide)⟩

/-- C8: for every name and every 32-bit increment, `addInt(name, increment)` attaches the
core block (the first `k` bytes of the buffer, `k` the offset `encode_core` returns) followed
by exactly five bytes: the increment tag 4 and the increment in four little-endian bytes; the
block has `k + 5` bytes. -/
theorem addInt_block (past : Nat → Nat) (g : Globals) (bleChar : BLECharacteristic)
    (strName : List Nat) (increment : Nat) (hg : g.WF) (hi : increment < 4294967296) :
    ∃ d, (addInt past g bleChar strName increment).bleChar = bleChar ++ [d] ∧
      d.value = (encode_core g (dBuffer past) 0 strName kSFEPropTypeInt).buffer.slice 0
          (encode_core g (dBuffer past) 0 strName kSFEPropTypeInt).iNext
        ++ [0x04, increment % 256, increment / 256 % 256, increment / 65536 % 256,
            increment / 16777216] ∧
      d.value.length = (encode_core g (dBuffer past) 0 strName kSFEPropTypeInt).iNext + 5 := by
  have h : (addInt past g bleChar strName increment).bleChar
      = bleChar ++ [⟨kBLEDescSFEPropCoreUUID,
          (encode_core g (dBuffer past) 0 strName kSFEPropTypeInt).buffer.slice 0
            (encode_core g (dBuffer past) 0 strName kSFEPropTypeInt).iNext
          ++ 4 :: bytes32 increment⟩] :=
    exec_value_core past g bleChar (.addInt strName increment) hg trivial
  rw [bytes32_of_lt _ hi] at h
  refine ⟨_, h, rfl, ?_⟩
  simp [Buffer.slice_length]

theorem addInt_block_witness :
    Globals.WF Globals.init ∧ (300 : Nat) < 4294967296 ∧
    ∃ d, (addInt (fun _ => 0) Globals.init [] [105] 300).bleChar = [] ++ [d] ∧
      d.value = (encode_core Globals.init (dBuffer fun _ => 0) 0 [105]
            kSFEPropTypeInt).buffer.slice 0
          (encode_core Globals.init (dBuffer fun _ => 0) 0 [105] kSFEPropTypeInt).iNext
        ++ [0x04, 300 % 256, 300 / 256 % 256, 300 / 65536 % 256, 300 / 16777216] ∧
      d.value.length
        = (encode_core Globals.init (dBuffer fun _ => 0) 0 [105] kSFEPropTypeInt).iNext + 5 :=
  ⟨by decide, by decide,
    addInt_block (fun _ => 0) Globals.init [] [105] 300 (by decide) (by decide)⟩

/-- C9: for every name and every option string of `o` characters, `1 ≤ o ≤ 64`, none of
them NUL, `addSelect` attaches the core block (the first `k` bytes of the buffer, `k` the
offset `encode_core` returns) followed by the select tag 3, the length byte `o` and the `o`
characters of the option string; the block has `k + 2 + o` bytes. -/
theorem addSelect_block (past : Nat → Nat) (g : Globals) (bleChar : BLECharacteristic)
    (strName strOptions : List Nat) (hg : g.WF) (hnul : ∀ b ∈ strOptions, b ≠ 0)
    (h1 : 1 ≤ strOptions.length) (h64 : strOptions.length ≤ 64) :
    ∃ d, (addSelect past g bleChar strName (some strOptions)).bleChar = bleChar ++ [d] ∧
      d.value = (encode_core g (dBuffer past) 0 strName kSFEPropTypeSelect).buffer.slice 0
          (encode_core g (dBuffer past) 0 strName kSFEPropTypeSelect).iNext
        ++ 0x03 :: strOptions.length :: strOptions ∧
      d.value.length
        = (encode_core g (dBuffer past) 0 strName kSFEPropTypeSelect).iNext + 2
            + strOptions.length := by
  have hs := strlen_of_no_nul strOptions hnul
  have hc : Call.Accepted (.addSelect strName (some strOptions)) := by
    show 1 ≤ strlen strOptions ∧ strlen strOptions ≤ 64
    omega
  have h : (addSelect past g bleChar strName (some strOptions)).bleChar
      = bleChar ++ [⟨kBLEDescSFEPropCoreUUID,
          (encode_core g (dBuffer past) 0 strName kSFEPropTypeSelect).buffer.slice 0
            (encode_core g (dBuffer past) 0 strName kSFEPropTypeSelect).iNext
          ++ 3 :: strlen strOptions :: strOptions.take (strlen strOptions)⟩] :=
    exec_value_core past g bleChar (.addSelect strName (some strOptions)) hg hc
  rw [hs, List.take_length] at h
  refine ⟨_, h, rfl, ?_⟩
  simp [Buffer.slice_length]
  omega

theorem addSelect_block_witness :
    Globals.WF Globals.init ∧ (∀ b ∈ [97, 124, 98], b ≠ 0) ∧
    1 ≤ [97, 124, 98].length ∧ [97, 124, 98].length ≤ 64 ∧
    ∃ d, (addSelect (fun _ => 0) Globals.init [] [115] (some [97, 124, 98])).bleChar
        = [] ++ [d] ∧
      d.value = (encode_core Globals.init (dBuffer fun _ => 0) 0 [115]
            kSFEPropTypeSelect).buffer.slice 0
          (encode_core Globals.init (dBuffer fun _ => 0) 0 [115] kSFEPropTypeSelect).iNext
        ++ 0x03 :: [97, 124, 98].length :: [97, 124, 98] ∧
      d.value.length
        = (encode_core Globals.init (dBuffer fun _ => 0) 0 [115] kSFEPropTypeSelect).iNext + 2
            + [97, 124, 98].length :=
  ⟨by decide, by decide, by decide, by decide,
    addSelect_block (fun _ => 0) Globals.init [] [115] [97, 124, 98] (by decide) (by decide)
      (by decide) (by decide)⟩

/-- C10: `addSelect` leaves the descriptors of the characteristic unchanged exactly when the
option string is null, empty, or longer than 64 characters; in particular it attaches nothing
for the empty string and for any string of 65 or more characters, and for every option
string of 1 to 64 characters (64 included) it attaches exactly one descriptor. -/
theorem addSelect_rejects_iff (past : Nat → Nat) (g : Globals) (bleChar : BLECharacteristic)
    (strName : List Nat) (strOptions : Option (List Nat)) :
    ((addSelect past g bleChar strName strOptions).bleChar = bleChar ↔
      (strOptions = none ∨ ∃ o, strOptions = some o ∧ (strlen o = 0 ∨ 65 ≤ strlen o))) ∧
    (addSelect past g bleChar strName (some [])).bleChar = bleChar ∧
    (∀ o, 65 ≤ strlen o → (addSelect past g bleChar strName (some o)).bleChar = bleChar) ∧
    (∀ o, 1 ≤ strlen o → strlen o ≤ 64 →
      ∃ d, (addSelect past g bleChar strName (some o)).bleChar = bleChar ++ [d]) := by
  have rej : ∀ o, (strlen o = 0 ∨ 65 ≤ strlen o) →
      (addSelect past g bleChar strName (some o)).bleChar = bleChar := by
    intro o ho
    have : strlen o = 0 ∨ strlen o > kSFBLEMaxString := by unfold kSFBLEMaxString; omega
    simp [addSelect, this]
  have acc : ∀ o, 1 ≤ strlen o → strlen o ≤ 64 →
      ∃ d, (addSelect past g bleChar strName (some o)).bleChar = bleChar ++ [d] := by
    intro o h1 h2
    have : ¬ (strlen o = 0 ∨ strlen o > kSFBLEMaxString) := by unfold kSFBLEMaxString; omega
    simp only [addSelect, this, if_false, set_descriptor]
    exact ⟨_, rfl⟩
  refine ⟨?_, rej [] (Or.inl rfl), fun o ho => rej o (Or.inr ho), acc⟩
  cases strOptions with
  | none => simp [addSelect]
  | some o =>
    constructor
    · intro h
      refine Or.inr ⟨o, rfl, ?_⟩
      by_contra hno
      obtain ⟨d, hd⟩ := acc o (by omega) (by omega)
      rw [hd] at h
      simp at h
    · rintro (h | ⟨o', ho', h⟩)
      · cases h
      · cases ho'
        exact rej o h

theorem addSelect_rejects_iff_witness :
    65 ≤ strlen (List.replicate 65 97) ∧
    (addSelect (fun _ => 0) Globals.init [] [115] (some (List.replicate 65 97))).bleChar = [] ∧
    1 ≤ strlen (List.replicate 64 97) ∧ strlen (List.replicate 64 97) ≤ 64 ∧
    ∃ d, (addSelect (fun _ => 0) Globals.init [] [115] (some (List.replicate 64 97))).bleChar
      = [] ++ [d] :=
  ⟨by decide,
    (addSelect_rejects_iff (fun _ => 0) Globals.init [] [115] none).2.2.1 _ (by decide),
    by decide, by decide,
    (addSelect_rejects_iff (fun _ => 0) Globals.init [] [115] none).2.2.2 _ (by decide)
      (by decide)⟩

theorem nameBlock_of_empty (strName : List Nat) (h : strlen strName = 0) :
    nameBlock strName = [] := by
  simp [nameBlock, h]

/-- C11, as the code has it: an empty name does not stop an add operation. Every attaching
call (each of the eight, `addSelect` when its option string is accepted) with an empty name
adds exactly one descriptor. Its block has no length byte and no characters for the name: it
starts with the four attribute bytes and ends with the payload of the operation; when no
title is stashed it is these two parts and nothing else, and when a title of `t ≥ 1`
characters is stashed the attribute bytes are followed at once by the title tag 1, the
length byte `t` and the `t` characters of the title. -/
theorem empty_name_attaches (past : Nat → Nat) (g : Globals) (bleChar : BLECharacteristic)
    (c : Call) (hg : g.WF) (hc : c.Accepted) (hn : strlen c.strName = 0) :
    ∃ d, (c.exec past g bleChar).bleChar = bleChar ++ [d] ∧
      (c.exec past g bleChar).bleChar ≠ bleChar ∧
      d.value.take 4 = [c.typeCode, g.sort_pos, 0, 0] ∧
      List.IsSuffix c.payload d.value ∧
      (strlen g.titleBuffer = 0 → d.value = [c.typeCode, g.sort_pos, 0, 0] ++ c.payload) ∧
      (1 ≤ strlen g.titleBuffer →
        (d.value.drop 4).take (2 + strlen g.titleBuffer)
          = 1 :: strlen g.titleBuffer :: g.pendingTitle) := by
  refine ⟨_, exec_bleChar past g bleChar c hg hc, ?_, by simp, ?_, ?_, ?_⟩
  · rw [exec_bleChar past g bleChar c hg hc]
    simp
  · exact List.suffix_append _ _
  · intro h0
    simp [nameBlock_of_empty _ hn, titleBlock_of_empty _ h0]
  · intro ht
    simp only [nameBlock_of_empty _ hn, List.append_nil, List.append_assoc, List.cons_append,
      List.nil_append, List.drop_succ_cons, List.drop_zero]
    exact titleBlock_take g ht c.payload

theorem empty_name_attaches_witness :
    Globals.WF (addTitle Globals.init (some [83, 101, 110, 115, 111, 114, 115])) ∧
    Call.Accepted (.addInt [] 1) ∧ strlen (Call.addInt [] 1).strName = 0 ∧
    1 ≤ strlen (addTitle Globals.init (some [83, 101, 110, 115, 111, 114, 115])).titleBuffer ∧
    ∃ d, ((Call.addInt [] 1).exec (fun _ => 0)
        (addTitle Globals.init (some [83, 101, 110, 115, 111, 114, 115])) []).bleChar
          = [] ++ [d] ∧
      ((Call.addInt [] 1).exec (fun _ => 0)
        (addTitle Globals.init (some [83, 101, 110, 115, 111, 114, 115])) []).bleChar ≠ [] ∧
      d.value.take 4 = [2, 0, 0, 0] ∧
      List.IsSuffix (Call.addInt [] 1).payload d.value ∧
      (strlen (addTitle Globals.init (some [83, 101, 110, 115, 111, 114, 115])).titleBuffer = 0 →
        d.value = [2, 0, 0, 0] ++ (Call.addInt [] 1).payload) ∧
      (1 ≤ strlen (addTitle Globals.init (some [83, 101, 110, 115, 111, 114, 115])).titleBuffer →
        (d.value.drop 4).take
            (2 + strlen (addTitle Globals.init
              (some [83, 101, 110, 115, 111, 114, 115])).titleBuffer)
          = 1 :: strlen (addTitle Globals.init
              (some [83, 101, 110, 115, 111, 114, 115])).titleBuffer
            :: (addTitle Globals.init (some [83, 101, 110, 115, 111, 114, 115])).pendingTitle) :=
  ⟨by decide, by decide, by decide, by decide,
    empty_name_attaches (fun _ => 0)
      (addTitle Globals.init (some [83, 101, 110, 115, 111, 114, 115])) [] (.addInt [] 1)
      (by decide) (by decide) (by decide)⟩

/-- C11 fails as stated: from the initial state `addBool` with the empty name attaches a
descriptor, the four bytes 1, 0, 0, 0. -/
theorem empty_name_not_rejected :
    ¬ (∀ (past : Nat → Nat) (g : Globals) (bleChar : BLECharacteristic) (c : Call),
        c.strName = [] → (c.exec past g bleChar).bleChar = bleChar) ∧
    (addBool (fun _ => 0) Globals.init [] []).bleChar.map BLEDescriptor.value
      = [[1, 0, 0, 0]] := by
  refine ⟨fun h => ?_, by decide⟩
  have := h (fun _ => 0) Globals.init [] (.addBool []) rfl
  exact absurd this (by decide)

/-- What `addTitle` stashes for a non-empty title: its first 63 characters at most. -/
theorem addTitle_strlen (g : Globals) (t : List Nat) (h0 : strlen t ≠ 0) :
    strlen (addTitle g (some t)).titleBuffer = min (strlen t) 63 := by
  have hl := strlen_le_length t
  have hnul := take_no_nul t (min (strlen t) 63) (Nat.min_le_left _ _)
  rw [addTitle_titleBuffer g t h0, strlen_append_nul _ _ hnul]
  simp; omega

theorem addTitle_pendingTitle (g : Globals) (t : List Nat) (h0 : strlen t ≠ 0) :
    (addTitle g (some t)).pendingTitle = t.take (min (strlen t) 63) := by
  have hl := strlen_le_length t
  unfold Globals.pendingTitle
  rw [addTitle_strlen g t h0, addTitle_titleBuffer g t h0]
  rw [List.take_append_of_le_length (by simp; omega), List.take_of_length_le (by simp)]

/-- C12: `addTitle` with a title of 64 characters stashes only its first 63, and with one of
100 characters too: `strlcpy` keeps the last of the 64 cells of `titleBuffer` for the NUL.
The title block of the next property then has the length byte 63, where the claim has 64. -/
theorem addTitle_keeps_63 :
    (addTitle Globals.init (some (List.replicate 64 65))).pendingTitle = List.replicate 63 65 ∧
    strlen (addTitle Globals.init (some (List.replicate 64 65))).titleBuffer = 63 ∧
    min 64 64 = 64 ∧
    (addTitle Globals.init (some (List.replicate 100 65))).pendingTitle = List.replicate 63 65 ∧
    ((addBool (fun _ => 0) (addTitle Globals.init (some (List.replicate 64 65))) []
        [110]).bleChar.map fun d => (d.value.drop 6).take 2) = [[1, 63]] := by
  decide

theorem addTitle_sort_pos (g : Globals) (t : Option (List Nat)) :
    (addTitle g t).sort_pos = g.sort_pos := by
  cases t with
  | none => rfl
  | some t =>
    by_cases h0 : strlen t = 0 <;> simp [addTitle, h0]

/-- The title block that follows a non-empty `addTitle`. -/
theorem titleBlock_addTitle (g : Globals) (t : List Nat) (h0 : strlen t ≠ 0) :
    titleBlock (addTitle g (some t))
      = 1 :: min (strlen t) 63 ::
          (t.take (min (strlen t) 63) ++ List.replicate (min (strlen t) 63) 0) := by
  have hne : min (strlen t) 63 ≠ 0 := by omega
  simp only [titleBlock, addTitle_strlen g t h0, addTitle_pendingTitle g t h0, hne, if_false]

/-- A call that is not accepted changes neither the globals nor the characteristic. -/
theorem exec_not_accepted (past : Nat → Nat) (g : Globals) (bleChar : BLECharacteristic)
    (c : Call) (hc : ¬ c.Accepted) :
    (c.exec past g bleChar).globals = g ∧ (c.exec past g bleChar).bleChar = bleChar := by
  cases c with
  | addSelect n o =>
    cases o with
    | none => exact ⟨rfl, rfl⟩
    | some o =>
      have hrej : strlen o = 0 ∨ strlen o > kSFBLEMaxString := by
        have : ¬ (1 ≤ strlen o ∧ strlen o ≤ 64) := hc
        unfold kSFBLEMaxString; omega
      simp [Call.exec, addSelect, hrej]
  | _ => exact absurd trivial hc

/-- C13: `addTitle` with a null or an empty title changes nothing, neither the stash nor the
sort counter. After `addTitle(t1)` and then `addTitle(t2)` with `t2` non-empty, and no
property encoded in between, the stashed title is `t2` as `addTitle` clips it, whatever `t1`
was; the next add operation attaches the very block it attaches after `addTitle(t2)` alone,
and the title block in it carries the clipped `t2` and no character of `t1`. -/
theorem last_title_wins (past : Nat → Nat) (g : Globals) (bleChar : BLECharacteristic)
    (c : Call) (t1 : Option (List Nat)) (t2 : List Nat) (hg : g.WF) (h2 : strlen t2 ≠ 0) :
    addTitle g none = g ∧
    (∀ t, strlen t = 0 → addTitle g (some t) = g) ∧
    (addTitle (addTitle g t1) (some t2)).pendingTitle = t2.take (min (strlen t2) 63) ∧
    (addTitle (addTitle g t1) (some t2)).sort_pos = g.sort_pos ∧
    (c.exec past (addTitle (addTitle g t1) (some t2)) bleChar).bleChar
      = (c.exec past (addTitle g (some t2)) bleChar).bleChar ∧
    (c.Accepted →
      ∃ d, (c.exec past (addTitle (addTitle g t1) (some t2)) bleChar).bleChar
          = bleChar ++ [d] ∧
        d.value = [c.typeCode, g.sort_pos, 0, 0] ++ nameBlock c.strName
          ++ 1 :: min (strlen t2) 63 ::
              (t2.take (min (strlen t2) 63) ++ List.replicate (min (strlen t2) 63) 0)
          ++ c.payload) := by
  have hw1 := addTitle_WF _ (some t2) (addTitle_WF g t1 hg)
  have hw2 := addTitle_WF g (some t2) hg
  have hval : ∀ hc : c.Accepted,
      (c.exec past (addTitle (addTitle g t1) (some t2)) bleChar).bleChar
        = bleChar ++ [⟨kBLEDescSFEPropCoreUUID,
            [c.typeCode, g.sort_pos, 0, 0] ++ nameBlock c.strName
            ++ 1 :: min (strlen t2) 63 ::
                (t2.take (min (strlen t2) 63) ++ List.replicate (min (strlen t2) 63) 0)
            ++ c.payload⟩] := by
    intro hc
    rw [exec_bleChar past _ bleChar c hw1 hc, titleBlock_addTitle _ t2 h2, addTitle_sort_pos,
      addTitle_sort_pos]
  refine ⟨rfl, fun t ht => by simp [addTitle, ht], addTitle_pendingTitle _ t2 h2,
    by rw [addTitle_sort_pos, addTitle_sort_pos], ?_, fun hc => ⟨_, hval hc, rfl⟩⟩
  by_cases hc : c.Accepted
  · rw [hval hc, exec_bleChar past _ bleChar c hw2 hc, titleBlock_addTitle _ t2 h2,
      addTitle_sort_pos]
  · rw [(exec_not_accepted past _ bleChar c hc).2, (exec_not_accepted past _ bleChar c hc).2]

theorem last_title_wins_witness :
    Globals.WF Globals.init ∧ strlen [66, 66] ≠ 0 ∧
    (addTitle (addTitle Globals.init (some [65, 65, 65, 65])) (some [66, 66])).pendingTitle
      = [66, 66].take (min (strlen [66, 66]) 63) :=
  ⟨by decide, by decide,
    (last_title_wins (fun _ => 0) Globals.init [] (.addBool [110]) (some [65, 65, 65, 65])
      [66, 66] (by decide) (by decide)).2.2.1⟩

theorem step_exec_WF (past : Nat → Nat) (s : Globals × BLECharacteristic) (st : Step)
    (hg : s.1.WF) : (st.exec past s).1.WF := by
  cases st with
  | title t => exact addTitle_WF s.1 t hg
  | prop c => exact exec_WF past s.1 s.2 c hg

theorem run_WF (past : Nat → Nat) (s : Globals × BLECharacteristic) (ss : List Step)
    (hg : s.1.WF) : (run past s ss).1.WF := by
  induction ss generalizing s with
  | nil => exact hg
  | cons st rest ih => exact ih _ (step_exec_WF past s st hg)

theorem reachable_WF (g : Globals) (h : Reachable g) : g.WF := by
  obtain ⟨past, ss, rfl⟩ := h
  exact run_WF past _ ss (by decide)

/-- The sort counter and the sort positions attached along a run. -/
theorem run_sortPositions (past : Nat → Nat) (s : Globals × BLECharacteristic)
    (ss : List Step) (hg : s.1.WF) :
    (run past s ss).1.sort_pos = (s.1.sort_pos + encodings ss) % 256 ∧
    sortPositions (run past s ss).2
      = sortPositions s.2 ++ (List.range (encodings ss)).map fun k => (s.1.sort_pos + k) % 256 := by
  induction ss generalizing s with
  | nil =>
    have := hg.1
    simp [run, encodings]
    omega
  | cons st rest ih =>
    have hw := step_exec_WF past s st hg
    obtain ⟨ih1, ih2⟩ := ih _ hw
    have hsp := hg.1
    cases st with
    | title t =>
      have e1 : (Step.exec past s (Step.title t)).1.sort_pos = s.1.sort_pos :=
        addTitle_sort_pos s.1 t
      have e2 : (Step.exec past s (Step.title t)).2 = s.2 := rfl
      rw [e1] at ih1 ih2
      rw [e2] at ih2
      exact ⟨ih1, ih2⟩
    | prop c =>
      by_cases hc : c.Accepted
      · have e1 : (Step.exec past s (Step.prop c)).1.sort_pos = (s.1.sort_pos + 1) % 256 := by
          simp only [Step.exec, exec_globals past s.1 s.2 c hc]
        have e2 : sortPositions (Step.exec past s (Step.prop c)).2
            = sortPositions s.2 ++ [s.1.sort_pos] := by
          simp [Step.exec, exec_bleChar past s.1 s.2 c hg hc, sortPositions]
        rw [e1] at ih1 ih2
        rw [e2] at ih2
        have hen : encodings (Step.prop c :: rest) = encodings rest + 1 := by
          simp [encodings, hc, Nat.add_comm]
        rw [hen]
        refine ⟨by show (run past _ rest).1.sort_pos = _; rw [ih1]; omega, ?_⟩
        show sortPositions (run past _ rest).2 = _
        rw [ih2, List.range_succ_eq_map]
        simp only [List.map_cons, List.map_map, List.append_assoc, List.singleton_append,
          Nat.add_zero, Nat.mod_eq_of_lt hsp]
        congr 2
        apply List.map_congr_left
        intro k _
        simp only [Function.comp]
        omega
      · have hr := exec_not_accepted past s.1 s.2 c hc
        have e1 : (Step.exec past s (Step.prop c)).1.sort_pos = s.1.sort_pos := by
          simp only [Step.exec, hr.1]
        have e2 : (Step.exec past s (Step.prop c)).2 = s.2 := by
          simp only [Step.exec, hr.2]
        rw [e1] at ih1 ih2
        rw [e2] at ih2
        have hen : encodings (Step.prop c :: rest) = encodings rest := by
          simp [encodings, hc]
        rw [hen]
        exact ⟨ih1, ih2⟩

/-- C14: in a run from the initial state, the property encoded by the `k`-th encoding call
(counting from 0) carries the sort position `k mod 256`, and each encoding call advances the
counter by one modulo 256. While a run has at most 256 encoding calls the positions are
0, 1, 2, ... in order, hence strictly increasing and pairwise distinct; the 257th encoding
call is given position 0 again. -/
theorem sort_positions_of_run (past : Nat → Nat) (ss : List Step) :
    sortPositions (run past (Globals.init, []) ss).2
      = (List.range (encodings ss)).map (fun k => k % 256) ∧
    (run past (Globals.init, []) ss).1.sort_pos = encodings ss % 256 ∧
    (∀ (g : Globals) (bleChar : BLECharacteristic) (c : Call), c.Accepted →
      (c.exec past g bleChar).globals.sort_pos = (g.sort_pos + 1) % 256) ∧
    (encodings ss ≤ 256 →
      sortPositions (run past (Globals.init, []) ss).2 = List.range (encodings ss) ∧
      (sortPositions (run past (Globals.init, []) ss).2).Pairwise (fun a b => a < b) ∧
      (sortPositions (run past (Globals.init, []) ss).2).Nodup) ∧
    (256 < encodings ss →
      (sortPositions (run past (Globals.init, []) ss).2)[256]? = some 0) := by
  obtain ⟨h1, h2⟩ := run_sortPositions past (Globals.init, []) ss (by decide)
  have e1 : sortPositions (run past (Globals.init, []) ss).2
      = (List.range (encodings ss)).map (fun k => k % 256) := by
    rw [h2]
    simp [sortPositions, Globals.init]
  have e2 : encodings ss ≤ 256 →
      sortPositions (run past (Globals.init, []) ss).2 = List.range (encodings ss) := by
    intro hle
    rw [e1]
    conv_rhs => rw [← List.map_id (List.range (encodings ss))]
    apply List.map_congr_left
    intro k hk
    have := List.mem_range.mp hk
    simp only [id]
    omega
  refine ⟨e1, by simpa [Globals.init] using h1, ?_, ?_, ?_⟩
  · intro g bleChar c hc
    rw [exec_globals past g bleChar c hc]
  · intro hle
    refine ⟨e2 hle, ?_, ?_⟩
    · rw [e2 hle]; exact List.pairwise_lt_range _
    · rw [e2 hle]; exact List.nodup_range _
  · intro hgt
    rw [e1]
    simp [hgt]

theorem sort_positions_of_run_witness :
    encodings [.prop (.addBool [97]), .title (some [84]), .prop (.addSelect [98] none),
      .prop (.addInt [99] 1)] ≤ 256 ∧
    sortPositions (run (fun _ => 0) (Globals.init, [])
      [.prop (.addBool [97]), .title (some [84]), .prop (.addSelect [98] none),
        .prop (.addInt [99] 1)]).2
      = List.range (encodings [.prop (.addBool [97]), .title (some [84]),
          .prop (.addSelect [98] none), .prop (.addInt [99] 1)]) :=
  ⟨by decide,
    ((sort_positions_of_run (fun _ => 0)
      [.prop (.addBool [97]), .title (some [84]), .prop (.addSelect [98] none),
        .prop (.addInt [99] 1)]).2.2.2.1 (by decide)).1⟩

/-- A rejected `addSelect` leaves the globals and the characteristic as they were. -/
theorem addSelect_rejected (past : Nat → Nat) (g : Globals) (bleChar : BLECharacteristic)
    (strName : List Nat) (strOptions : Option (List Nat))
    (h : ¬ Call.Accepted (.addSelect strName strOptions)) :
    (addSelect past g bleChar strName strOptions).globals = g ∧
    (addSelect past g bleChar strName strOptions).bleChar = bleChar :=
  exec_not_accepted past g bleChar (.addSelect strName strOptions) h

theorem not_accepted_of_long (strName o : List Nat) (h : 65 ≤ strlen o) :
    ¬ Call.Accepted (.addSelect strName (some o)) := by
  intro hc
  have : 1 ≤ strlen o ∧ strlen o ≤ 64 := hc
  omega

/-- C15 fails as stated: from the initial state an `addSelect` with an option string of 65
characters leaves the sort counter at 0, and the `addBool` that follows is given position 0,
the position after none skipped. -/
theorem rejected_addSelect_keeps_counter :
    (addSelect (fun _ => 0) Globals.init [] [115]
      (some (List.replicate 65 97))).globals.sort_pos = 0 ∧
    ¬ ((addSelect (fun _ => 0) Globals.init [] [115]
      (some (List.replicate 65 97))).globals.sort_pos = (Globals.init.sort_pos + 1) % 256) ∧
    sortPositions (addBool (fun _ => 0)
      (addSelect (fun _ => 0) Globals.init [] [115] (some (List.replicate 65 97))).globals
      [] [98]).bleChar = [0] := by
  decide

/-- C15, as the code has it: the test of the option string comes before the attribute
encoder runs, so an `addSelect` aborted for an option string of more than 64 characters
leaves the sort counter (and the characteristic) unchanged; the property encoded next is
given the position the counter had before the aborted call, and the counter moves on by one
from there: no position is skipped. -/
theorem aborted_addSelect_no_gap (past past2 : Nat → Nat) (g : Globals)
    (bleChar : BLECharacteristic) (strName o : List Nat) (c : Call) (hg : g.WF)
    (ho : 65 ≤ strlen o) (hc : c.Accepted) :
    (addSelect past g bleChar strName (some o)).globals.sort_pos = g.sort_pos ∧
    (addSelect past g bleChar strName (some o)).bleChar = bleChar ∧
    (∃ d, (c.exec past2 (addSelect past g bleChar strName (some o)).globals
          (addSelect past g bleChar strName (some o)).bleChar).bleChar = bleChar ++ [d] ∧
        d.value[1]? = some g.sort_pos) ∧
    (c.exec past2 (addSelect past g bleChar strName (some o)).globals
      (addSelect past g bleChar strName (some o)).bleChar).globals.sort_pos
        = (g.sort_pos + 1) % 256 := by
  obtain ⟨h1, h2⟩ := addSelect_rejected past g bleChar strName (some o)
    (not_accepted_of_long strName o ho)
  rw [h1, h2]
  refine ⟨rfl, rfl, ⟨_, exec_bleChar past2 g bleChar c hg hc, by simp⟩, ?_⟩
  rw [exec_globals past2 g bleChar c hc]

theorem aborted_addSelect_no_gap_witness :
    Globals.WF ⟨41, List.replicate 64 0⟩ ∧ 65 ≤ strlen (List.replicate 70 97) ∧
    Call.Accepted (.addTime [116]) ∧
    (addSelect (fun _ => 0) ⟨41, List.replicate 64 0⟩ [] [115]
      (some (List.replicate 70 97))).globals.sort_pos = 41 :=
  ⟨by decide, by decide, by decide,
    (aborted_addSelect_no_gap (fun _ => 0) (fun _ => 0) ⟨41, List.replicate 64 0⟩ [] [115]
      (List.replicate 70 97) (.addTime [116]) (by decide) (by decide) (by decide)).1⟩

/-- C16: from any state and for every name, `addInt(name)` attaches the same bytes and
leaves the same sort counter and stashed title as `addInt(name, 1)`, and `addFloat(name)`
does as `addFloat(name, 0.01)`, the increment being passed as the 32 bits of the `float`.
These bits are `0x3C23D70A`: sign 0, exponent field 120, so the pattern denotes
`floatSignificand / 2 ^ 30`, which lies within half a unit in the last place of 1/100. -/
theorem default_increments (past : Nat → Nat) (g : Globals) (bleChar : BLECharacteristic)
    (strName : List Nat) :
    (addIntDefault past g bleChar strName).bleChar
      = (addInt past g bleChar strName 1).bleChar ∧
    (addIntDefault past g bleChar strName).globals
      = (addInt past g bleChar strName 1).globals ∧
    (addFloatDefault past g bleChar strName).bleChar
      = (addFloat past g bleChar strName 0x3C23D70A).bleChar ∧
    (addFloatDefault past g bleChar strName).globals
      = (addFloat past g bleChar strName 0x3C23D70A).globals ∧
    0x3C23D70A < 2147483648 ∧ floatExponent 0x3C23D70A = 120 ∧
    100 * floatSignificand 0x3C23D70A ≤ 2 ^ 30 ∧
    2 * (2 ^ 30 - 100 * floatSignificand 0x3C23D70A) < 100 ∧
    bytes32 1 = [1, 0, 0, 0] ∧ bytes32 0x3C23D70A = [0x0A, 0xD7, 0x23, 0x3C] :=
  ⟨rfl, rfl, rfl, rfl, by decide, by decide, by decide, by decide, by decide, by decide⟩

/-! ## The highest index stored to -/

theorem encode_string_top (b : Buffer) (k : Nat) (s : List Nat) (n : Nat) (h1 : 1 ≤ n) :
    (encode_string b k (some s) n).1.top = max b.top (k + 1 + n) := by
  have h : ¬ n < 1 := by omega
  have h0 : n ≠ 0 := by omega
  simp only [encode_string, h, if_false, Buffer.memcpy, Buffer.store, h0]
  omega

theorem encode_string_top_le (b : Buffer) (k : Nat) (s : Option (List Nat)) (n : Nat) :
    (encode_string b k s n).1.top ≤ max b.top (encode_string b k s n).2 ∧
    k ≤ (encode_string b k s n).2 := by
  cases s with
  | none => simp [encode_string]
  | some s =>
    by_cases h : n < 1
    · simp [encode_string, h]
    · rw [encode_string_top b k s n (by omega), encode_string_snd b k s n (by omega)]
      omega

theorem encode_title_top_le (g : Globals) (b : Buffer) (k : Nat) :
    (encode_title g b k).buffer.top ≤ max b.top (encode_title g b k).iNext := by
  unfold encode_title
  by_cases h0 : strlen g.titleBuffer = 0
  · simp [h0]
  · simp only [h0, if_false]
    rw [encode_string_top _ _ _ _ (by omega), encode_string_snd _ _ _ _ (by omega)]
    simp only [Buffer.store]
    omega

theorem encode_core_top_le (g : Globals) (b : Buffer) (k : Nat) (strName : List Nat)
    (propType : Nat) :
    (encode_core g b k strName propType).buffer.top
      ≤ max b.top (encode_core g b k strName propType).iNext := by
  unfold encode_core
  have h1 := encode_title_top_le (encode_attributes g b k propType).globals
    (encode_string (encode_attributes g b k propType).buffer
      (encode_attributes g b k propType).iNext (some strName)
      (if strlen strName > kSFBLEMaxString then kSFBLEMaxString else strlen strName)).1
    (encode_string (encode_attributes g b k propType).buffer
      (encode_attributes g b k propType).iNext (some strName)
      (if strlen strName > kSFBLEMaxString then kSFBLEMaxString else strlen strName)).2
  have h2 := encode_string_top_le (encode_attributes g b k propType).buffer
    (encode_attributes g b k propType).iNext (some strName)
    (if strlen strName > kSFBLEMaxString then kSFBLEMaxString else strlen strName)
  have h3 : (encode_attributes g b k propType).buffer.top = max (max b.top (k + 1)) (k + 1 + 1) :=
    rfl
  have h4 : (encode_attributes g b k propType).iNext = k + 4 := rfl
  have h5 := encode_title_iNext (encode_attributes g b k propType).globals
    (encode_string (encode_attributes g b k propType).buffer
      (encode_attributes g b k propType).iNext (some strName)
      (if strlen strName > kSFBLEMaxString then kSFBLEMaxString else strlen strName)).1
    (encode_string (encode_attributes g b k propType).buffer
      (encode_attributes g b k propType).iNext (some strName)
      (if strlen strName > kSFBLEMaxString then kSFBLEMaxString else strlen strName)).2
  simp only [] at h1 h2 h5 ⊢
  omega

/-- The highest store of `encode_core` into `dBuffer` lies below the offset it returns. -/
theorem encode_core_dBuffer_top (past : Nat → Nat) (g : Globals) (strName : List Nat)
    (propType : Nat) :
    (encode_core g (dBuffer past) 0 strName propType).buffer.top
      ≤ (encode_core g (dBuffer past) 0 strName propType).iNext := by
  have h := encode_core_top_le g (dBuffer past) 0 strName propType
  have h0 : (dBuffer past).top = 0 := rfl
  omega

/-- The highest store of each attaching call: nothing beyond the block it attaches. -/
theorem exec_top_le (past : Nat → Nat) (g : Globals) (bleChar : BLECharacteristic) (c : Call)
    (hg : g.WF) (hc : c.Accepted) :
    (c.exec past g bleChar).dBuffer.top
      ≤ 4 + (nameBlock c.strName).length + (titleBlock g).length + c.payload.length := by
  have hk : ∀ ty, (encode_core g (dBuffer past) 0 c.strName ty).iNext
      = 4 + (nameBlock c.strName).length + (titleBlock g).length := by
    intro ty
    rw [← (encode_core_filled past g hg c.strName ty).length]
    simp; omega
  have ht := fun ty => encode_core_dBuffer_top past g c.strName ty
  have hle := fun ty => encode_core_iNext_le past g hg c.strName ty
  have tagged : ∀ ty tag (src : List Nat) n, n ≠ 0 →
      ((((encode_core g (dBuffer past) 0 c.strName ty).buffer.store
          ((encode_core g (dBuffer past) 0 c.strName ty).iNext % 65536) tag).memcpy
          (((encode_core g (dBuffer past) 0 c.strName ty).iNext % 65536 + 1) % 65536)
          src n).top
        ≤ 4 + (nameBlock c.strName).length + (titleBlock g).length + (1 + n)) := by
    intro ty tag src n hn
    have := hk ty
    have := ht ty
    have := hle ty
    simp only [Buffer.memcpy, Buffer.store, hn, if_false]
    omega
  cases c with
  | addBool n =>
    have := hk kSFEPropTypeBool
    have := ht kSFEPropTypeBool
    simp only [Call.strName] at *
    simp only [Call.exec, addBool, add_basic, Call.payload]
    omega
  | addString n =>
    have := hk kSFEPropTypeText
    have := ht kSFEPropTypeText
    simp only [Call.strName] at *
    simp only [Call.exec, addString, add_basic, Call.payload]
    omega
  | addDate n =>
    have := hk kSFEPropTypeDate
    have := ht kSFEPropTypeDate
    simp only [Call.strName] at *
    simp only [Call.exec, addDate, add_basic, Call.payload]
    omega
  | addTime n =>
    have := hk kSFEPropTypeTime
    have := ht kSFEPropTypeTime
    simp only [Call.strName] at *
    simp only [Call.exec, addTime, add_basic, Call.payload]
    omega
  | addInt n i => exact tagged kSFEPropTypeInt kBlkIncrement (bytes32 i) 4 (by decide)
  | addIntDefault n => exact tagged kSFEPropTypeInt kBlkIncrement (bytes32 1) 4 (by decide)
  | addFloat n i => exact tagged kSFEPropTypeFloat kBlkIncrement (bytes32 i) 4 (by decide)
  | addFloatDefault n =>
    exact tagged kSFEPropTypeFloat kBlkIncrement (bytes32 0x3C23D70A) 4 (by decide)
  | addRange n lo hi =>
    exact tagged kSFEPropTypeRange kBlkRange (bytes32 lo ++ bytes32 hi) 8 (by decide)
  | addSelect n o =>
    cases o with
    | none => exact absurd hc (by simp [Call.Accepted])
    | some o =>
      obtain ⟨h1, h2⟩ : 1 ≤ strlen o ∧ strlen o ≤ 64 := hc
      have hrej : ¬ (strlen o = 0 ∨ strlen o > kSFBLEMaxString) := by
        unfold kSFBLEMaxString; omega
      have := hk kSFEPropTypeSelect
      have := ht kSFEPropTypeSelect
      have := hle kSFEPropTypeSelect
      have hl := strlen_le_length o
      simp only [Call.strName] at *
      simp only [Call.exec, addSelect, hrej, if_false, Call.payload,
        encode_string_top _ _ _ _ h1, Buffer.store, List.length_cons, List.length_take]
      omega

/-- The highest store of an accepted `addSelect` is the last byte of the block it attaches. -/
theorem addSelect_top (past : Nat → Nat) (g : Globals) (bleChar : BLECharacteristic)
    (strName o : List Nat) (hg : g.WF) (h1 : 1 ≤ strlen o) (h2 : strlen o ≤ 64) :
    (addSelect past g bleChar strName (some o)).dBuffer.top
      = 4 + (nameBlock strName).length + (titleBlock g).length + 2 + strlen o := by
  have hrej : ¬ (strlen o = 0 ∨ strlen o > kSFBLEMaxString) := by
    unfold kSFBLEMaxString; omega
  have hk : (encode_core g (dBuffer past) 0 strName kSFEPropTypeSelect).iNext
      = 4 + (nameBlock strName).length + (titleBlock g).length := by
    rw [← (encode_core_filled past g hg strName kSFEPropTypeSelect).length]
    simp; omega
  have ht := encode_core_dBuffer_top past g strName kSFEPropTypeSelect
  have hle := encode_core_iNext_le past g hg strName kSFEPropTypeSelect
  simp only [addSelect, hrej, if_false, encode_string_top _ _ _ _ h1, Buffer.store]
  omega

/-- C17: the scratch buffer of 256 bytes can be overflowed. With a title of 63 characters
stashed through `addTitle`, a name of 64 characters and an option string of 64 characters,
which `addSelect` accepts, the encoder stores up to index 262, beyond the last index 255 of
`dBuffer`, and the block handed to `set_descriptor` has 263 bytes. -/
theorem scratch_buffer_overflow (past : Nat → Nat) :
    ∃ (strTitle strName strOptions : List Nat),
      strlen strTitle ≤ 64 ∧ strlen strName ≤ 64 ∧
      Call.Accepted (.addSelect strName (some strOptions)) ∧
      kSFBLEBufferSize < (addSelect past (addTitle Globals.init (some strTitle)) [] strName
        (some strOptions)).dBuffer.top ∧
      (addSelect past (addTitle Globals.init (some strTitle)) [] strName
        (some strOptions)).dBuffer.top = 263 ∧
      ∃ d, (addSelect past (addTitle Globals.init (some strTitle)) [] strName
          (some strOptions)).bleChar = [d] ∧
        d.value.length = 263 ∧ kSFBLEBufferSize < d.value.length := by
  refine ⟨List.replicate 63 65, List.replicate 64 66, List.replicate 64 67, by decide,
    by decide, by decide, ?_⟩
  have hw : (addTitle Globals.init (some (List.replicate 63 65))).WF :=
    addTitle_WF _ _ (by decide)
  have hn : (nameBlock (List.replicate 64 66)).length = 65 := by decide
  have ht : (titleBlock (addTitle Globals.init (some (List.replicate 63 65)))).length = 128 := by
    decide
  have ho : strlen (List.replicate 64 67) = 64 := by decide
  have htop := addSelect_top past _ [] (List.replicate 64 66) (List.replicate 64 67) hw
    (by decide) (by decide)
  rw [hn, ht, ho] at htop
  have hv := exec_bleChar past _ [] (.addSelect (List.replicate 64 66)
    (some (List.replicate 64 67))) hw (by decide)
  have hlen : ([Call.typeCode (.addSelect (List.replicate 64 66) (some (List.replicate 64 67))),
        (addTitle Globals.init (some (List.replicate 63 65))).sort_pos, 0, 0]
      ++ nameBlock (Call.strName (.addSelect (List.replicate 64 66)
          (some (List.replicate 64 67))))
      ++ titleBlock (addTitle Globals.init (some (List.replicate 63 65)))
      ++ Call.payload (.addSelect (List.replicate 64 66) (some (List.replicate 64 67)))).length
      = 263 := by
    simp only [List.length_append, Call.strName, hn, ht, Call.payload, ho, List.length_cons,
      List.length_nil, List.length_take, List.length_replicate]
    decide
  refine ⟨by rw [htop]; decide, htop, _, hv, hlen, ?_⟩
  show kSFBLEBufferSize < List.length _
  rw [hlen]
  decide

theorem payload_length_le (c : Call) (hns : ∀ n o, c ≠ Call.addSelect n o) :
    c.payload.length ≤ 9 := by
  cases c with
  | addSelect n o => exact absurd rfl (hns n o)
  | _ => simp [Call.payload, bytes32]

theorem accepted_of_not_select (c : Call) (hns : ∀ n o, c ≠ Call.addSelect n o) :
    c.Accepted := by
  cases c with
  | addSelect n o => exact absurd rfl (hns n o)
  | _ => trivial

/-- The highest store of `addRange` is the last byte of the block it attaches. -/
theorem addRange_top (past : Nat → Nat) (g : Globals) (bleChar : BLECharacteristic)
    (strName : List Nat) (vMin vMax : Nat) (hg : g.WF) :
    (addRange past g bleChar strName vMin vMax).dBuffer.top
      = 4 + (nameBlock strName).length + (titleBlock g).length + 9 := by
  have hk : (encode_core g (dBuffer past) 0 strName kSFEPropTypeRange).iNext
      = 4 + (nameBlock strName).length + (titleBlock g).length := by
    rw [← (encode_core_filled past g hg strName kSFEPropTypeRange).length]
    simp; omega
  have ht := encode_core_dBuffer_top past g strName kSFEPropTypeRange
  have hle := encode_core_iNext_le past g hg strName kSFEPropTypeRange
  simp only [addRange, Buffer.memcpy, Buffer.store, show ¬ (8 = 0) by decide, if_false]
  omega

theorem nameBlock_length_of_long (strName : List Nat) (h : 64 ≤ strlen strName) :
    (nameBlock strName).length = 65 := by
  have hl := strlen_le_length strName
  have h0 : strlen strName ≠ 0 := by omega
  simp [nameBlock, h0]
  omega

/-- C18: in every state reachable from the initial one through `addTitle` and the add
operations, each operation other than `addSelect` stores only at indices below 256 of the
scratch buffer (its highest store is below index 206) and attaches a block of at most 206
bytes. The bound is attained: `addRange` with a name of 64 or more characters attaches
exactly 206 bytes when a title of 63 characters is stashed, and such a state is reachable.
An accepted `addSelect` can store beyond the buffer in that same state. -/
theorem only_addSelect_overflows (past : Nat → Nat) (g : Globals)
    (bleChar : BLECharacteristic) (c : Call) (hr : Reachable g)
    (hns : ∀ n o, c ≠ Call.addSelect n o) :
    (c.exec past g bleChar).dBuffer.top ≤ 206 ∧
    (c.exec past g bleChar).dBuffer.top ≤ kSFBLEBufferSize ∧
    (∃ d, (c.exec past g bleChar).bleChar = bleChar ++ [d] ∧ d.value.length ≤ 206) ∧
    (∀ strName vMin vMax, 64 ≤ strlen strName → strlen g.titleBuffer = 63 →
      (addRange past g bleChar strName vMin vMax).dBuffer.top = 206 ∧
      ∃ d, (addRange past g bleChar strName vMin vMax).bleChar = bleChar ++ [d] ∧
        d.value.length = 206) ∧
    (∃ g63, Reachable g63 ∧ strlen g63.titleBuffer = 63 ∧
      ∃ strName strOptions, Call.Accepted (.addSelect strName (some strOptions)) ∧
        kSFBLEBufferSize < (addSelect past g63 bleChar strName (some strOptions)).dBuffer.top) := by
  have hg := reachable_WF g hr
  have hc := accepted_of_not_select c hns
  have hp := payload_length_le c hns
  have hn := nameBlock_length_le c.strName
  have ht := titleBlock_length g
  have ht63 : strlen g.titleBuffer < 64 := hg.2.2
  have htl : (titleBlock g).length ≤ 128 := by
    rw [ht]; split <;> omega
  have htop := exec_top_le past g bleChar c hg hc
  refine ⟨by omega, by unfold kSFBLEBufferSize; omega,
    ⟨_, exec_bleChar past g bleChar c hg hc, ?_⟩, ?_, ?_⟩
  · simp only [List.length_append, List.length_cons, List.length_nil]
    omega
  · intro strName vMin vMax h64 h63
    have hnb := nameBlock_length_of_long strName h64
    have htb : (titleBlock g).length = 128 := by
      rw [ht, h63]; rfl
    refine ⟨by rw [addRange_top past g bleChar strName vMin vMax hg, hnb, htb],
      _, exec_bleChar past g bleChar (.addRange strName vMin vMax) hg trivial, ?_⟩
    simp only [List.length_append, Call.strName, hnb, htb, Call.payload, bytes32,
      List.length_cons, List.length_nil]
  · have hw : (addTitle Globals.init (some (List.replicate 63 65))).WF :=
      addTitle_WF _ _ (by decide)
    refine ⟨addTitle Globals.init (some (List.replicate 63 65)),
      ⟨past, [.title (some (List.replicate 63 65))], rfl⟩, by decide,
      List.replicate 64 66, List.replicate 64 67, by decide, ?_⟩
    rw [addSelect_top past _ bleChar _ _ hw (by decide) (by decide)]
    have hn : (nameBlock (List.replicate 64 66)).length = 65 := by decide
    have ht : (titleBlock (addTitle Globals.init (some (List.replicate 63 65)))).length
        = 128 := by decide
    have ho : strlen (List.replicate 64 67) = 64 := by decide
    rw [hn, ht, ho]
    decide

theorem only_addSelect_overflows_witness :
    Reachable (addTitle Globals.init (some (List.replicate 63 65))) ∧
    (∀ n o, Call.addRange (List.replicate 64 66) 0 100 ≠ Call.addSelect n o) ∧
    ((Call.addRange (List.replicate 64 66) 0 100).exec (fun _ => 0)
      (addTitle Globals.init (some (List.replicate 63 65))) []).dBuffer.top ≤ 206 :=
  ⟨⟨fun _ => 0, [.title (some (List.replicate 63 65))], rfl⟩,
    fun _ _ h => Call.noConfusion h,
    (only_addSelect_overflows (fun _ => 0)
      (addTitle Globals.init (some (List.replicate 63 65))) []
      (.addRange (List.replicate 64 66) 0 100)
      ⟨fun _ => 0, [.title (some (List.replicate 63 65))], rfl⟩
      (fun _ _ h => Call.noConfusion h)).1⟩

/-- What follows the name block in a block. -/
theorem drop_after_nameBlock (ty sp : Nat) (nb rest : List Nat) :
    ([ty, sp, 0, 0] ++ nb ++ rest).drop (4 + nb.length) = rest := by
  rw [List.drop_append_of_le_length (by simp; omega), List.drop_of_length_le (by simp; omega)]
  simp

/-- C19: an `addSelect` that is rejected (option string null, empty or longer than 64
characters) leaves `titleBuffer` as it was. The next attaching add operation therefore
attaches the block it would have attached without the rejected call, and when a title of
`t ≥ 1` characters was stashed, that block holds right after the name block the title tag 1,
the length byte `t` and the title. -/
theorem rejected_addSelect_keeps_title (past past2 : Nat → Nat) (g : Globals)
    (bleChar : BLECharacteristic) (strName : List Nat) (strOptions : Option (List Nat))
    (c : Call) (hg : g.WF)
    (hrej : strOptions = none ∨ ∃ o, strOptions = some o ∧ (strlen o = 0 ∨ 65 ≤ strlen o))
    (hc : c.Accepted) :
    (addSelect past g bleChar strName strOptions).globals.titleBuffer = g.titleBuffer ∧
    (addSelect past g bleChar strName strOptions).globals.pendingTitle = g.pendingTitle ∧
    (c.exec past2 (addSelect past g bleChar strName strOptions).globals
        (addSelect past g bleChar strName strOptions).bleChar).bleChar
      = (c.exec past2 g bleChar).bleChar ∧
    (1 ≤ strlen g.titleBuffer →
      ∃ d, (c.exec past2 (addSelect past g bleChar strName strOptions).globals
          (addSelect past g bleChar strName strOptions).bleChar).bleChar = bleChar ++ [d] ∧
        (d.value.drop (4 + (nameBlock c.strName).length)).take (2 + strlen g.titleBuffer)
          = 1 :: strlen g.titleBuffer :: g.pendingTitle) := by
  have hna : ¬ Call.Accepted (.addSelect strName strOptions) := by
    rcases hrej with rfl | ⟨o, rfl, ho⟩
    · exact fun h => h
    · intro h
      have : 1 ≤ strlen o ∧ strlen o ≤ 64 := h
      omega
  obtain ⟨h1, h2⟩ := addSelect_rejected past g bleChar strName strOptions hna
  rw [h1, h2]
  refine ⟨rfl, rfl, rfl, fun ht => ⟨_, exec_bleChar past2 g bleChar c hg hc, ?_⟩⟩
  simp only [List.append_assoc]
  have := drop_after_nameBlock c.typeCode g.sort_pos (nameBlock c.strName)
    (titleBlock g ++ c.payload)
  simp only [List.append_assoc] at this
  rw [this]
  exact titleBlock_take g ht c.payload

theorem rejected_addSelect_keeps_title_witness :
    Globals.WF ⟨0, 84 :: 49 :: List.replicate 62 0⟩ ∧
    ((some [] : Option (List Nat)) = none ∨
      ∃ o, (some [] : Option (List Nat)) = some o ∧ (strlen o = 0 ∨ 65 ≤ strlen o)) ∧
    Call.Accepted (.addBool [110]) ∧
    (addSelect (fun _ => 0) ⟨0, 84 :: 49 :: List.replicate 62 0⟩ [] [115]
      (some [])).globals.titleBuffer = 84 :: 49 :: List.replicate 62 0 :=
  ⟨by decide, Or.inr ⟨[], rfl, Or.inl rfl⟩, by decide,
    (rejected_addSelect_keeps_title (fun _ => 0) (fun _ => 0)
      ⟨0, 84 :: 49 :: List.replicate 62 0⟩ [] [115] (some []) (.addBool [110]) (by decide)
      (Or.inr ⟨[], rfl, Or.inl rfl⟩) (by decide)).1⟩

/-- A title followed by its gap of zero bytes is not the title block of another title. -/
theorem title_gap_ne_titleBlock (P1 P2 : List Nat) (hP2 : ∀ x ∈ P2, x ≠ 0) (hne : P2 ≠ [])
    (h : P1 ++ List.replicate P1.length 0
      = 1 :: P2.length :: (P2 ++ List.replicate P2.length 0)) : False := by
  rcases List.eq_nil_or_concat P2 with h0 | ⟨Q, x, hQ⟩
  · exact hne h0
  · rw [List.concat_eq_append] at hQ
    subst hQ
    have hx : x ≠ 0 := hP2 x (by simp)
    have hlen := congrArg List.length h
    simp only [List.length_append, List.length_replicate, List.length_cons, List.length_nil]
      at hlen
    have hsplit : P1 ++ List.replicate P1.length 0
        = (1 :: (Q ++ [x]).length :: Q) ++ (x :: List.replicate (Q ++ [x]).length 0) := by
      rw [h]; simp
    have hl : P1.length = (1 :: (Q ++ [x]).length :: Q).length := by
      simp only [List.length_cons, List.length_append, List.length_nil]
      omega
    have h2 := (List.append_inj hsplit hl).2
    have hpos : P1.length = (P1.length - 1) + 1 := by omega
    rw [hpos, List.replicate_succ] at h2
    exact hx (List.cons.inj h2).1.symm

theorem titleBlock_shape_inj (P1 P2 : List Nat)
    (h : (if P1.length = 0 then [] else 1 :: P1.length :: (P1 ++ List.replicate P1.length 0))
      = (if P2.length = 0 then [] else 1 :: P2.length :: (P2 ++ List.replicate P2.length 0))) :
    P1 = P2 := by
  by_cases h1 : P1.length = 0 <;> by_cases h2 : P2.length = 0
  · rw [List.length_eq_zero.mp h1, List.length_eq_zero.mp h2]
  · simp [h1, h2] at h
  · simp [h1, h2] at h
  · simp only [h1, h2, if_false] at h
    have hl : P1.length = P2.length := (List.cons.inj (List.cons.inj h).2).1
    exact (List.append_inj (List.cons.inj (List.cons.inj h).2).2 hl).1

/-- The name block and the title block together determine the name and the title. -/
theorem blocks_shape_inj (a1 a2 P1 P2 : List Nat) (hP1 : ∀ x ∈ P1, x ≠ 0)
    (hP2 : ∀ x ∈ P2, x ≠ 0)
    (h : (if a1.length = 0 then [] else a1.length :: a1)
        ++ (if P1.length = 0 then [] else 1 :: P1.length :: (P1 ++ List.replicate P1.length 0))
      = (if a2.length = 0 then [] else a2.length :: a2)
        ++ (if P2.length = 0 then [] else
            1 :: P2.length :: (P2 ++ List.replicate P2.length 0))) :
    a1 = a2 ∧ P1 = P2 := by
  have cross : ∀ (a P P' : List Nat), (∀ x ∈ P', x ≠ 0) → a.length ≠ 0 →
      (if P.length = 0 then [] else 1 :: P.length :: (P ++ List.replicate P.length 0))
        = a.length :: a
          ++ (if P'.length = 0 then [] else
              1 :: P'.length :: (P' ++ List.replicate P'.length 0)) → False := by
    intro a P P' hP' ha hh
    by_cases hp : P.length = 0
    · simp [hp] at hh
    · simp only [hp, if_false, List.cons_append] at hh
      have hal : a.length = 1 := (List.cons.inj hh).1.symm
      obtain ⟨c, rfl⟩ := List.length_eq_one.mp hal
      have hh2 := (List.cons.inj hh).2
      simp only [List.cons_append, List.nil_append] at hh2
      have hh3 := (List.cons.inj hh2).2
      by_cases hp' : P'.length = 0
      · simp only [hp', if_true] at hh3
        have := congrArg List.length hh3
        simp only [List.length_append, List.length_replicate, List.length_nil] at this
        omega
      · simp only [hp', if_false] at hh3
        exact title_gap_ne_titleBlock P P' hP' (fun h0 => hp' (by simp [h0])) hh3
  by_cases h1 : a1.length = 0 <;> by_cases h2 : a2.length = 0
  · simp only [h1, h2, if_true, List.nil_append] at h
    exact ⟨by rw [List.length_eq_zero.mp h1, List.length_eq_zero.mp h2],
      titleBlock_shape_inj P1 P2 h⟩
  · simp only [h1, h2, if_true, if_false, List.nil_append] at h
    exact (cross a2 P1 P2 hP2 h2 h).elim
  · simp only [h1, h2, if_true, if_false, List.nil_append] at h
    exact (cross a1 P2 P1 hP1 h1 h.symm).elim
  · simp only [h1, h2, if_false, List.cons_append] at h
    have hl : a1.length = a2.length := (List.cons.inj h).1
    obtain ⟨e1, e2⟩ := List.append_inj (List.cons.inj h).2 hl
    exact ⟨e1, titleBlock_shape_inj P1 P2 e2⟩

theorem nameBlock_shape (strName : List Nat) (hnul : ∀ b ∈ strName, b ≠ 0) :
    nameBlock strName
      = if (strName.take 64).length = 0 then []
        else (strName.take 64).length :: strName.take 64 := by
  have hs := strlen_of_no_nul strName hnul
  unfold nameBlock
  rw [hs]
  by_cases h0 : strName.length = 0
  · simp [h0]
  · by_cases h64 : strName.length ≤ 64
    · have e : min strName.length 64 = strName.length := by omega
      simp [h0, e, List.take_of_length_le h64]
    · have e : min strName.length 64 = 64 := by omega
      have e2 : min 64 strName.length = 64 := by omega
      simp [h0, e, e2]

theorem titleBlock_shape (g : Globals) :
    titleBlock g
      = if g.pendingTitle.length = 0 then []
        else 1 :: g.pendingTitle.length ::
          (g.pendingTitle ++ List.replicate g.pendingTitle.length 0) := by
  have hl := strlen_le_length g.titleBuffer
  have hp : g.pendingTitle.length = strlen g.titleBuffer := by
    simp [Globals.pendingTitle, hl]
  rw [hp]
  rfl

theorem pendingTitle_no_nul (g : Globals) : ∀ x ∈ g.pendingTitle, x ≠ 0 :=
  take_no_nul g.titleBuffer (strlen g.titleBuffer) (Nat.le_refl _)

/-- C20: for the property types without a payload (`addBool`, `addString`, `addDate`,
`addTime`), with the same type code and the same sort position, two calls attach the same
block exactly when the names, clipped to 64 characters, are equal and the stashed titles are
equal. Names are free of NUL and may be empty, in which case they contribute no byte; the
stashed title has at most 63 characters in every well-formed state. So two calls whose
pairs of clipped name and stashed title differ never attach identical blocks. -/
theorem basic_blocks_unambiguous (past1 past2 : Nat → Nat) (g1 g2 : Globals)
    (ch1 ch2 : BLECharacteristic) (c1 c2 : Call) (hg1 : g1.WF) (hg2 : g2.WF)
    (hb1 : c1.Basic) (hb2 : c2.Basic) (hty : c1.typeCode = c2.typeCode)
    (hsp : g1.sort_pos = g2.sort_pos) (hn1 : ∀ b ∈ c1.strName, b ≠ 0)
    (hn2 : ∀ b ∈ c2.strName, b ≠ 0) :
    g1.pendingTitle.length ≤ 63 ∧ g2.pendingTitle.length ≤ 63 ∧
    ∃ d1 d2, (c1.exec past1 g1 ch1).bleChar = ch1 ++ [d1] ∧
      (c2.exec past2 g2 ch2).bleChar = ch2 ++ [d2] ∧
      (d1.value = d2.value ↔
        (c1.strName.take 64 = c2.strName.take 64 ∧ g1.pendingTitle = g2.pendingTitle)) ∧
      ((c1.strName.take 64, g1.pendingTitle) ≠ (c2.strName.take 64, g2.pendingTitle) →
        d1.value ≠ d2.value) := by
  have hc1 : c1.Accepted := by cases c1 <;> trivial
  have hc2 : c2.Accepted := by cases c2 <;> trivial
  have hp1 : c1.payload = [] := by
    cases c1 <;> first | rfl | exact absurd hb1 (by simp [Call.Basic])
  have hp2 : c2.payload = [] := by
    cases c2 <;> first | rfl | exact absurd hb2 (by simp [Call.Basic])
  have hlen : ∀ g : Globals, g.WF → g.pendingTitle.length ≤ 63 := by
    intro g hg
    have := hg.2.2
    have hl := strlen_le_length g.titleBuffer
    unfold kSFBLEMaxString at this
    simp [Globals.pendingTitle, hl]
    omega
  have key : ([c1.typeCode, g1.sort_pos, 0, 0] ++ nameBlock c1.strName ++ titleBlock g1
        ++ c1.payload
      = [c2.typeCode, g2.sort_pos, 0, 0] ++ nameBlock c2.strName ++ titleBlock g2
        ++ c2.payload) ↔
      (c1.strName.take 64 = c2.strName.take 64 ∧ g1.pendingTitle = g2.pendingTitle) := by
    rw [hp1, hp2, hty, hsp, nameBlock_shape _ hn1, nameBlock_shape _ hn2, titleBlock_shape g1,
      titleBlock_shape g2]
    simp only [List.append_nil, List.append_assoc, List.append_cancel_left_eq]
    constructor
    · exact blocks_shape_inj _ _ _ _ (pendingTitle_no_nul g1) (pendingTitle_no_nul g2)
    · rintro ⟨e1, e2⟩
      rw [e1, e2]
  refine ⟨hlen g1 hg1, hlen g2 hg2, _, _, exec_bleChar past1 g1 ch1 c1 hg1 hc1,
    exec_bleChar past2 g2 ch2 c2 hg2 hc2, key, ?_⟩
  intro hne heq
  apply hne
  obtain ⟨e1, e2⟩ := key.mp heq
  rw [e1, e2]

theorem basic_blocks_unambiguous_witness :
    Globals.WF ⟨0, 1 :: 2 :: List.replicate 62 0⟩ ∧ Globals.WF ⟨0, 3 :: List.replicate 63 0⟩ ∧
    Call.Basic (.addBool []) ∧ Call.Basic (.addBool [2]) ∧
    (Call.addBool []).typeCode = (Call.addBool [2]).typeCode ∧
    (Globals.mk 0 (1 :: 2 :: List.replicate 62 0)).sort_pos
      = (Globals.mk 0 (3 :: List.replicate 63 0)).sort_pos ∧
    (∀ b ∈ (Call.addBool []).strName, b ≠ 0) ∧ (∀ b ∈ (Call.addBool [2]).strName, b ≠ 0) ∧
    (Globals.mk 0 (1 :: 2 :: List.replicate 62 0)).pendingTitle.length ≤ 63 :=
  ⟨by decide, by decide, by decide, by decide, by decide, by decide, by decide, by decide,
    (basic_blocks_unambiguous (fun _ => 0) (fun _ => 0) ⟨0, 1 :: 2 :: List.replicate 62 0⟩
      ⟨0, 3 :: List.replicate 63 0⟩ [] [] (.addBool []) (.addBool [2]) (by decide) (by decide)
      (by decide) (by decide) (by decide) (by decide) (by decide) (by decide)).1⟩

end sfBLEProperties
